import Mathlib

/-!
# WiredDownloader: a verification development

A shallow embedding of `main.go` (package `main` of WiredDownloader) together with the
parts of the Go standard library it calls (`unicode/utf8`, `unicode`, `strings`, `regexp`)
and of `golang.org/x/net/html` (the node tree), followed by theorems about
`extractTitle`, `extractContent`, `getTextContent`, `sanitizeFilename`, `fetchArticle`,
`saveArticleToFile` and `main`.

Go strings are byte sequences, not sequences of characters: slicing (`filename[:100]`) works
on bytes, while `strings.TrimSpace` and the regular expressions decode UTF-8 on the fly and
treat every byte that does not start a well-formed encoding as the one-byte rune U+FFFD.
The embedding keeps that distinction.
-/

/-- A Go string is an immutable sequence of bytes.  A byte is a natural number below 256;
every function below is total on arbitrary lists, and the theorems hold for all of them. -/
abbrev GoString := List Nat

/-- The bytes of a string literal whose characters are all ASCII. -/
def ascii (s : String) : GoString := s.toList.map Char.toNat

/-! ## `unicode/utf8` -/

namespace utf8

/-- The "error" rune U+FFFD. -/
def RuneError : Nat := 0xFFFD

/-- Runes below `RuneSelf` are encoded as themselves in one byte. -/
def RuneSelf : Nat := 0x80

/-- Lowest continuation byte. -/
def locb : Nat := 0x80

/-- Highest continuation byte. -/
def hicb : Nat := 0xBF

/-- Table entry of an invalid first byte: size 1. -/
def xx : Nat := 0xF1

/-- Table entry of an ASCII first byte: size 1. -/
def as : Nat := 0xF0

/-- Table entry: accept range 0, size 2. -/
def s1 : Nat := 0x02

/-- Table entry: accept range 1, size 3. -/
def s2 : Nat := 0x13

/-- Table entry: accept range 0, size 3. -/
def s3 : Nat := 0x03

/-- Table entry: accept range 2, size 3. -/
def s4 : Nat := 0x23

/-- Table entry: accept range 3, size 4. -/
def s5 : Nat := 0x34

/-- Table entry: accept range 0, size 4. -/
def s6 : Nat := 0x04

/-- Table entry: accept range 4, size 4. -/
def s7 : Nat := 0x44

/-- The table `first`: information about the first byte of a UTF-8 sequence.
`0x00-0x7F` ASCII, `0x80-0xC1` invalid, `0xC2-0xDF` two bytes, `0xE0-0xEF` three bytes,
`0xF0-0xF4` four bytes, `0xF5-0xFF` invalid. -/
def first (b : Nat) : Nat :=
  if b < 0x80 then as
  else if b < 0xC2 then xx
  else if b < 0xE0 then s1
  else if b = 0xE0 then s2
  else if b < 0xED then s3
  else if b = 0xED then s4
  else if b < 0xF0 then s3
  else if b = 0xF0 then s5
  else if b < 0xF4 then s6
  else if b = 0xF4 then s7
  else xx

/-- The table `acceptRanges`: the range `(lo, hi)` of valid second bytes. -/
def acceptRanges (i : Nat) : Nat × Nat :=
  if i = 0 then (locb, hicb)
  else if i = 1 then (0xA0, hicb)
  else if i = 2 then (locb, 0x9F)
  else if i = 3 then (0x90, hicb)
  else if i = 4 then (locb, 0x8F)
  else (0, 0)

/-- `utf8.DecodeRuneInString`: the first rune of `s` and its width in bytes.  An empty
string gives `(RuneError, 0)`, an ill-formed encoding `(RuneError, 1)`.  The masks `&`
are remainders and the shifts and `|` of disjoint bit fields are products and sums. -/
def DecodeRuneInString (s : GoString) : Nat × Nat :=
  let n := s.length
  if n < 1 then (RuneError, 0)
  else
    let b0 := s.getD 0 0
    let x := first b0
    if x ≥ as then (if x = xx then RuneError else b0, 1)
    else
      let sz := x % 8
      let accept := acceptRanges (x / 16)
      if n < sz then (RuneError, 1)
      else
        let b1 := s.getD 1 0
        if b1 < accept.1 ∨ accept.2 < b1 then (RuneError, 1)
        else if sz ≤ 2 then ((b0 % 32) * 64 + b1 % 64, 2)
        else
          let b2 := s.getD 2 0
          if b2 < locb ∨ hicb < b2 then (RuneError, 1)
          else if sz ≤ 3 then ((b0 % 16) * 4096 + (b1 % 64) * 64 + b2 % 64, 3)
          else
            let b3 := s.getD 3 0
            if b3 < locb ∨ hicb < b3 then (RuneError, 1)
            else ((b0 % 8) * 262144 + (b1 % 64) * 4096 + (b2 % 64) * 64 + b3 % 64, 4)

/-- The longest encoding of a rune, in bytes. -/
def UTFMax : Nat := 4

/-- `utf8.RuneStart`: `b&0xC0 != 0x80`, the byte is not a continuation byte.  For a byte
the two top bits are `b / 64`. -/
def RuneStart (b : Nat) : Bool := b / 64 ≠ 2

/-- The loop `for start--; start >= lim; start-- { if RuneStart(s[start]) { break } }` of
`DecodeLastRuneInString` after its first `start--`, with `fuel` iterations left; the
result is the final value of `start`, which may be `lim - 1`. -/
def lastRuneStart (s : GoString) (lim : Int) : Nat → Int → Int
  | 0, start => start
  | fuel + 1, start =>
    if start ≥ lim then
      if RuneStart (s.getD start.toNat 0) then start
      else lastRuneStart s lim fuel (start - 1)
    else start

/-- `utf8.DecodeLastRuneInString`: the last rune of `s` and its width in bytes.  The loop
looks at no more than the `UTFMax` last bytes, so `UTFMax` iterations are enough. -/
def DecodeLastRuneInString (s : GoString) : Nat × Nat :=
  let end_ : Int := s.length
  if end_ = 0 then (RuneError, 0)
  else
    let start : Int := end_ - 1
    let r := s.getD start.toNat 0
    if r < RuneSelf then (r, 1)
    else
      let lim : Int := end_ - UTFMax
      let lim : Int := if lim < 0 then 0 else lim
      let start := lastRuneStart s lim UTFMax (start - 1)
      let start : Int := if start < 0 then 0 else start
      let d := DecodeRuneInString (s.drop start.toNat)
      if start + d.2 ≠ end_ then (RuneError, 1) else d

/-- The iteration `for i, r := range s` with `fuel` steps left: the runes of `s` in order,
each with the bytes it was decoded from. -/
def rangeAux : Nat → GoString → List (Nat × GoString)
  | 0, _ => []
  | fuel + 1, s =>
    if s = [] then []
    else
      let d := DecodeRuneInString s
      (d.1, s.take d.2) :: rangeAux fuel (s.drop d.2)

/-- The iteration `for i, r := range s`: every step consumes at least one byte, so
`s.length` steps are enough. -/
def range (s : GoString) : List (Nat × GoString) := rangeAux s.length s

/-- `utf8.RuneCountInString`. -/
def RuneCountInString (s : GoString) : Nat := (range s).length

end utf8

/-! ## `unicode` -/

namespace unicode

/-- `unicode.IsSpace`: in Latin-1 the spaces are `\t \n \v \f \r`, space, U+0085 and U+00A0;
elsewhere the table `White_Space`. -/
def IsSpace (r : Nat) : Bool :=
  if r ≤ 0xFF then
    r = 0x09 ∨ r = 0x0A ∨ r = 0x0B ∨ r = 0x0C ∨ r = 0x0D ∨ r = 0x20 ∨ r = 0x85 ∨ r = 0xA0
  else
    r = 0x1680 ∨ (0x2000 ≤ r ∧ r ≤ 0x200A) ∨ r = 0x2028 ∨ r = 0x2029 ∨ r = 0x202F ∨
      r = 0x205F ∨ r = 0x3000

end unicode

/-! ## `strings` -/

namespace strings

/-- The loop of `strings.indexFunc` over the runes still to visit, `i` being the byte
index of the first of them; `-1` when no rune has `f r = truth`. -/
def indexFuncAux (f : Nat → Bool) (truth : Bool) : List (Nat × GoString) → Nat → Int
  | [], _ => -1
  | (r, bs) :: rest, i =>
    if f r = truth then (i : Int) else indexFuncAux f truth rest (i + bs.length)

/-- `strings.indexFunc`. -/
def indexFunc (s : GoString) (f : Nat → Bool) (truth : Bool) : Int :=
  indexFuncAux f truth (utf8.range s) 0

/-- `strings.TrimLeftFunc`. -/
def TrimLeftFunc (s : GoString) (f : Nat → Bool) : GoString :=
  let i := indexFunc s f false
  if i = -1 then [] else s.drop i.toNat

/-- The loop of `strings.lastIndexFunc` with `fuel` iterations left, `i` being the end of
the part still to visit; `-1` when no rune has `f r = truth`. -/
def lastIndexFuncAux (s : GoString) (f : Nat → Bool) (truth : Bool) : Nat → Int → Int
  | 0, _ => -1
  | fuel + 1, i =>
    if i > 0 then
      let d := utf8.DecodeLastRuneInString (s.take i.toNat)
      let i := i - d.2
      if f d.1 = truth then i else lastIndexFuncAux s f truth fuel i
    else -1

/-- `strings.lastIndexFunc`: every iteration moves `i` down by at least one byte, so
`len(s)` iterations are enough. -/
def lastIndexFunc (s : GoString) (f : Nat → Bool) (truth : Bool) : Int :=
  lastIndexFuncAux s f truth s.length s.length

/-- `strings.TrimRightFunc`. -/
def TrimRightFunc (s : GoString) (f : Nat → Bool) : GoString :=
  let i := lastIndexFunc s f false
  let i : Int :=
    if i ≥ 0 ∧ s.getD i.toNat 0 ≥ utf8.RuneSelf then
      i + (utf8.DecodeRuneInString (s.drop i.toNat)).2
    else i + 1
  s.take i.toNat

/-- `strings.TrimFunc`. -/
def TrimFunc (s : GoString) (f : Nat → Bool) : GoString :=
  TrimRightFunc (TrimLeftFunc s f) f

/-- The table `asciiSpace` of the package `strings`. -/
def asciiSpace (c : Nat) : Bool :=
  c = 0x09 ∨ c = 0x0A ∨ c = 0x0B ∨ c = 0x0C ∨ c = 0x0D ∨ c = 0x20

/-- The second loop of `strings.TrimSpace`, on `t = s[start:]` with `n = stop - start`:
it moves `stop` down over ASCII white space and hands over to `TrimRightFunc` at the
first byte that is not ASCII. -/
def trimSpaceStop (t : GoString) : Nat → GoString
  | 0 => []
  | n + 1 =>
    let c := t.getD n 0
    if c ≥ utf8.RuneSelf then TrimRightFunc (t.take (n + 1)) unicode.IsSpace
    else if asciiSpace c then trimSpaceStop t n
    else t.take (n + 1)

/-- `strings.TrimSpace`: the first loop moves `start` up over ASCII white space and hands
over to `TrimFunc` at the first byte that is not ASCII; then the second loop runs. -/
def TrimSpace : GoString → GoString
  | [] => []
  | c :: t =>
    if c ≥ utf8.RuneSelf then TrimFunc (c :: t) unicode.IsSpace
    else if asciiSpace c then TrimSpace t
    else trimSpaceStop (c :: t) (c :: t).length

/-- `strings.Index`: the index of the first instance of `substr` in `s`. -/
def Index : GoString → GoString → Option Nat
  | [], substr => if substr = [] then some 0 else none
  | c :: t, substr =>
    if substr.isPrefixOf (c :: t) then some 0 else (Index t substr).map (· + 1)

/-- `strings.Contains`. -/
def Contains (s substr : GoString) : Bool := (Index s substr).isSome

/-- The loop of `strings.genSplit` for a non-empty separator, with `fuel` iterations left. -/
def splitAux (sep : GoString) : Nat → GoString → List GoString
  | 0, s => [s]
  | fuel + 1, s =>
    match Index s sep with
    | none => [s]
    | some m => s.take m :: splitAux sep fuel (s.drop (m + sep.length))

/-- `strings.Split` for a non-empty separator.  The library bounds the loop by the number
of separators; every iteration consumes at least one byte, so `s.length` does as well. -/
def Split (s sep : GoString) : List GoString := splitAux sep s.length s

end strings

/-! ## `regexp` -/

namespace regexp

/-- `ReplaceAllString` for a pattern that is one character class `[...]`: every rune of the
class is replaced by `repl` (which holds no `$`), all other bytes are copied. -/
def replaceAllClass (cls : Nat → Bool) (repl : GoString) (s : GoString) : GoString :=
  ((utf8.range s).map (fun c => if cls c.1 then repl else c.2)).flatten

/-- The scan of `ReplaceAllString` for a pattern `[...]+`; `inRun` says that the previous
rune was in the class, so the current match is still open. -/
def replaceRunsAux (cls : Nat → Bool) (repl : GoString) :
    List (Nat × GoString) → Bool → GoString
  | [], _ => []
  | (r, bs) :: rest, inRun =>
    if cls r then (if inRun then [] else repl) ++ replaceRunsAux cls repl rest true
    else bs ++ replaceRunsAux cls repl rest false

/-- `ReplaceAllString` for a pattern `[...]+`: every maximal run of runes of the class is
replaced by one `repl`. -/
def replaceAllClassPlus (cls : Nat → Bool) (repl : GoString) (s : GoString) : GoString :=
  replaceRunsAux cls repl (utf8.range s) false

/-- The class of the pattern `[<>:"/\\|?*]`. -/
def forbiddenClass (r : Nat) : Bool :=
  r = 0x3C ∨ r = 0x3E ∨ r = 0x3A ∨ r = 0x22 ∨ r = 0x2F ∨ r = 0x5C ∨ r = 0x7C ∨ r = 0x3F ∨
    r = 0x2A

/-- The class `\s` of Go regular expressions (RE2 syntax): `[\t\n\f\r ]`. -/
def spaceClass (r : Nat) : Bool :=
  r = 0x09 ∨ r = 0x0A ∨ r = 0x0C ∨ r = 0x0D ∨ r = 0x20

end regexp

/-! ## `golang.org/x/net/html` -/

namespace html

/-- `html.NodeType`. -/
inductive NodeType where
  | ErrorNode
  | TextNode
  | DocumentNode
  | ElementNode
  | CommentNode
  | DoctypeNode
  | RawNode
  deriving DecidableEq, Repr

/-- `html.Attribute`. -/
structure Attribute where
  Namespace : GoString
  Key : GoString
  Val : GoString
  deriving DecidableEq, Repr

/-- `html.Node`: type, data (tag name of an element, text of a text node), attributes and
the children, in the order of the `FirstChild`/`NextSibling` chain. -/
inductive Node where
  | mk (type : NodeType) (data : GoString) (attr : List Attribute) (children : List Node)

/-- The field `Type`. -/
def Node.type : Node → NodeType
  | .mk t _ _ _ => t

/-- The field `Data`. -/
def Node.data : Node → GoString
  | .mk _ d _ _ => d

/-- The field `Attr`. -/
def Node.attr : Node → List Attribute
  | .mk _ _ a _ => a

/-- The chain `FirstChild`, `NextSibling`, ... -/
def Node.children : Node → List Node
  | .mk _ _ _ c => c

mutual
/-- The nodes of the subtree rooted at a node, in document order (pre-order). -/
def Node.preorder : Node → List Node
  | .mk type data attr children => Node.mk type data attr children :: Node.preorderList children
/-- The nodes of the subtrees rooted at the nodes of a list, in document order. -/
def Node.preorderList : List Node → List Node
  | [] => []
  | c :: rest => Node.preorder c ++ Node.preorderList rest
end

/-- The data of the text nodes of the subtree rooted at `n`, concatenated in document
order. -/
def Node.textData (n : Node) : GoString :=
  ((n.preorder.filter (fun m => m.type = NodeType.TextNode)).map Node.data).flatten

end html

/-! ## `main.go` -/

open html

/-- The struct `Article`. -/
structure Article where
  Title : GoString
  Content : GoString
  deriving DecidableEq, Repr

/-- Function `extractTitle`: the element of `strings.Split(url, "/")` at index `len - 1`;
`none` stands for the run-time panic of an index out of range. -/
def extractTitle (url : GoString) : Option GoString :=
  let splitUrl := strings.Split url (ascii "/")
  let i : Int := ((strings.Split url (ascii "/")).length : Int) - 1
  if 0 ≤ i then splitUrl.get? i.toNat else none

/-- The title in the words of the specification: the last non-empty element of
`strings.Split(url, "/")`, if there is one. -/
def lastNonEmptySegment (url : GoString) : Option GoString :=
  ((strings.Split url (ascii "/")).filter (fun seg => seg ≠ [])).getLast?

mutual
/-- The closure `f` of `getTextContent`, the builder `text` passed as state. -/
def getTextContent.f : Node → GoString → GoString
  | .mk type data _ children, text =>
    getTextContent.fChildren children (if type = NodeType.TextNode then text ++ data else text)
/-- The loop `for c := n.FirstChild; c != nil; c = c.NextSibling { f(c) }`. -/
def getTextContent.fChildren : List Node → GoString → GoString
  | [], text => text
  | c :: rest, text => getTextContent.fChildren rest (getTextContent.f c text)
end

/-- Function `getTextContent`. -/
def getTextContent (n : Node) : GoString :=
  strings.TrimSpace (getTextContent.f n [])

/-- Function `getAttr`. -/
def getAttr (n : Node) (attrName : GoString) : GoString :=
  match n.attr.find? (fun attr => attr.Key = attrName) with
  | some attr => attr.Val
  | none => []

/-- The tags of the first `case` of the `switch` in `extractContent`. -/
def blockTags : List GoString :=
  [ascii "p", ascii "h1", ascii "h2", ascii "h3", ascii "h4", ascii "h5", ascii "h6"]

mutual
/-- The closure `f` of `extractContent`, the builder `content` passed as state. -/
def extractContent.f : Node → GoString → GoString
  | .mk type data attr children, content =>
    let n := Node.mk type data attr children
    let content :=
      if type = NodeType.ElementNode then
        if data ∈ blockTags then
          let text := getTextContent n
          if strings.TrimSpace text ≠ [] then content ++ text ++ ascii "\n\n" else content
        else if data = ascii "div" then
          let cls := getAttr n (ascii "class")
          if cls ≠ [] then
            if strings.Contains cls (ascii "article-body") ∨
                strings.Contains cls (ascii "content") ∨
                strings.Contains cls (ascii "post-body") then
              extractContent.fChildren children content
            else content
          else content
        else content
      else content
    extractContent.fChildren children content
/-- The loop `for c := n.FirstChild; c != nil; c = c.NextSibling { f(c) }`. -/
def extractContent.fChildren : List Node → GoString → GoString
  | [], content => content
  | c :: rest, content => extractContent.fChildren rest (extractContent.f c content)
end

/-- Function `extractContent`. -/
def extractContent (n : Node) : GoString :=
  strings.TrimSpace (extractContent.f n [])

/-- Function `sanitizeFilename`. -/
def sanitizeFilename (filename : GoString) : GoString :=
  let filename := regexp.replaceAllClass regexp.forbiddenClass [] filename
  let filename := regexp.replaceAllClassPlus regexp.spaceClass (ascii "_") filename
  let filename := if filename.length > 100 then filename.take 100 else filename
  strings.TrimSpace filename

/-- A content-bearing container in the words of the specification: a `div` element whose
class attribute contains `article-body`, `content` or `post-body`. -/
def isContainer (n : Node) : Bool :=
  n.type = NodeType.ElementNode ∧ n.data = ascii "div" ∧
    (strings.Contains (getAttr n (ascii "class")) (ascii "article-body") ∨
      strings.Contains (getAttr n (ascii "class")) (ascii "content") ∨
      strings.Contains (getAttr n (ascii "class")) (ascii "post-body"))

/-- The blocks of a list of nodes in the words of the specification: for each element
with tag `p` or `h1`, ..., `h6` whose text is not empty after trimming, its text content
followed by two newlines, in the order of the list. -/
def blocksOf (l : List Node) : GoString :=
  ((l.filter (fun e => e.type = NodeType.ElementNode ∧ e.data ∈ blockTags ∧
      strings.TrimSpace e.textData ≠ [])).map
    (fun e => getTextContent e ++ ascii "\n\n")).flatten

/-- A chain of nested `div` elements with the given attribute lists, the outermost first,
around the node `inner`. -/
def divChain : List (List Attribute) → Node → Node
  | [], inner => inner
  | attr :: rest, inner => .mk .ElementNode (ascii "div") attr [divChain rest inner]

/-! ## `main.go`: the parts that talk to the network and the file system

The HTTP client, the HTML parser and the operating system are black boxes: their answers
are the fields of a `World`.  The file system is explicit state. -/

/-- A Go `error` value, by its message. -/
abbrev GoError := GoString

/-- The fields of `http.Response` that the program reads. -/
structure Response where
  StatusCode : Int
  Status : GoString
  Body : GoString

/-- `http.StatusOK`. -/
def StatusOK : Int := 200

/-- The file system: the content of every regular file and the set of directories, by
path. -/
structure FileSystem where
  files : GoString → Option GoString
  dirs : GoString → Bool

/-- The answers of the world outside the program. -/
structure World where
  /-- `http.Get(url)`. -/
  Get : GoString → Except GoError Response
  /-- `html.Parse(resp.Body)`. -/
  Parse : GoString → Except GoError html.Node
  /-- `os.UserHomeDir()`. -/
  UserHomeDir : Except GoError GoString
  /-- `filepath.Join(a, b)`. -/
  Join : GoString → GoString → GoString
  /-- `os.MkdirAll(path, 0755)`: the error, if any, and the file system afterwards. -/
  MkdirAll : GoString → FileSystem → Option GoError × FileSystem
  /-- The error of `os.Create(path)`, if it fails. -/
  CreateErr : GoString → FileSystem → Option GoError
  /-- The failure of `io.WriteString(file, data)`, if it fails: the number of bytes written
  before the error, and the error. -/
  WriteErr : GoString → GoString → FileSystem → Option (Nat × GoError)

/-- A successful `os.Create(path)`: the file exists and is empty. -/
def FileSystem.create (fs : FileSystem) (path : GoString) : FileSystem :=
  ⟨fun q => if q = path then some [] else fs.files q, fs.dirs⟩

/-- The bytes `data` written at the end of the file at `path`. -/
def FileSystem.write (fs : FileSystem) (path data : GoString) : FileSystem :=
  ⟨fun q => if q = path then some ((fs.files path).getD [] ++ data) else fs.files q, fs.dirs⟩

/-- What a function that returns `(*Article, error)` and calls `extractTitle` can do:
return an article, return an error, or panic. -/
inductive FetchResult where
  | ok (article : Article)
  | err (e : GoError)
  | panic

/-- Function `fetchArticle`. -/
def fetchArticle (w : World) (url : GoString) : FetchResult :=
  match w.Get url with
  | .error err => .err (ascii "failed to fetch URL: " ++ err)
  | .ok resp =>
    if resp.StatusCode ≠ StatusOK then .err (ascii "HTTP error: " ++ resp.Status)
    else
      match w.Parse resp.Body with
      | .error err => .err (ascii "failed to parse HTML: " ++ err)
      | .ok doc =>
        match extractTitle url with
        | none => .panic
        | some title => .ok ⟨title, extractContent doc⟩

/-- Function `getWiredFolderPath`. -/
def getWiredFolderPath (w : World) (fs : FileSystem) : Except GoError GoString × FileSystem :=
  match w.UserHomeDir with
  | .error err => (.error (ascii "failed to get home directory: " ++ err), fs)
  | .ok home =>
    let documentsPath := w.Join home (ascii "Documents")
    let wiredPath := w.Join documentsPath (ascii "Wired")
    match w.MkdirAll wiredPath fs with
    | (some err, fs) => (.error (ascii "failed to create Wired directory: " ++ err), fs)
    | (none, fs) => (.ok wiredPath, fs)

/-- Function `saveArticleToFile`: the returned error (`none` for `nil`) and the file
system afterwards. -/
def saveArticleToFile (w : World) (article : Article) (filepath : GoString)
    (fs : FileSystem) : Option GoError × FileSystem :=
  match w.CreateErr filepath fs with
  | some err => (some (ascii "failed to create file: " ++ err), fs)
  | none =>
    let fs := fs.create filepath
    match w.WriteErr filepath (article.Title ++ ascii "\n\n") fs with
    | some (n, err) =>
      (some (ascii "failed to write title: " ++ err),
        fs.write filepath ((article.Title ++ ascii "\n\n").take n))
    | none =>
      let fs := fs.write filepath (article.Title ++ ascii "\n\n")
      match w.WriteErr filepath article.Content fs with
      | some (n, err) =>
        (some (ascii "failed to write content: " ++ err),
          fs.write filepath (article.Content.take n))
      | none => (none, fs.write filepath article.Content)

/-- The end of a run of the program: exit code, standard output, standard error (without
the time stamp that `log` puts in front) and the file system. -/
structure Run where
  exitCode : Nat
  stdout : GoString
  stderr : GoString
  fs : FileSystem

/-- Function `main`, on the arguments `os.Args` and the file system at the start. -/
def WiredDownloader.main (w : World) (Args : List GoString) (fs : FileSystem) : Run :=
  if Args.length < 2 then
    ⟨1, ascii "Usage: wired-downloader <wired-article-url>\n", [], fs⟩
  else
    let url := Args.getD 1 []
    if ¬ strings.Contains url (ascii "wired.com") then
      ⟨1, [], ascii "Please provide a valid Wired.com article URL\n", fs⟩
    else
      match fetchArticle w url with
      | .err err => ⟨1, [], ascii "Error fetching article: " ++ err ++ ascii "\n", fs⟩
      | .panic => ⟨2, [], [], fs⟩
      | .ok article =>
        match getWiredFolderPath w fs with
        | (.error err, fs) =>
          ⟨1, [], ascii "Error creating Wired folder: " ++ err ++ ascii "\n", fs⟩
        | (.ok wiredPath, fs) =>
          let filename := sanitizeFilename article.Title ++ ascii ".txt"
          let filepath := w.Join wiredPath filename
          match saveArticleToFile w article filepath fs with
          | (some err, fs) =>
            ⟨1, [], ascii "Error saving article: " ++ err ++ ascii "\n", fs⟩
          | (none, fs) => ⟨0, ascii "Article saved to: " ++ filepath ++ ascii "\n", [], fs⟩

/-- A world in which every call succeeds: the server answers `200 OK`, the parser returns
`doc`, the home directory is `/home/u` and paths are joined with `/`. -/
def exampleWorld (doc : html.Node) : World :=
  ⟨fun _ => .ok ⟨200, ascii "200 OK", []⟩, fun _ => .ok doc, .ok (ascii "/home/u"),
    fun a b => a ++ ascii "/" ++ b,
    fun p fs => (none, ⟨fs.files, fun q => q = p ∨ fs.dirs q⟩),
    fun _ _ => none, fun _ _ _ => none⟩

/-- A world whose server answers `404 Not Found`. -/
def notFoundWorld : World :=
  ⟨fun _ => .ok ⟨404, ascii "404 Not Found", []⟩, fun _ => .ok (.mk .DocumentNode [] [] []),
    .ok (ascii "/home/u"), fun a b => a ++ ascii "/" ++ b,
    fun p fs => (none, ⟨fs.files, fun q => q = p ∨ fs.dirs q⟩),
    fun _ _ => none, fun _ _ _ => none⟩

/-- The empty file system. -/
def emptyFileSystem : FileSystem := ⟨fun _ => none, fun _ => false⟩

/-! ## The decoder -/

namespace utf8

theorem first_cases (b : Nat) :
    first b = as ∨ first b = xx ∨
      (first b < as ∧ (first b % 8 = 2 ∨ first b % 8 = 3 ∨ first b % 8 = 4) ∧
        locb ≤ (acceptRanges (first b / 16)).1 ∧ (acceptRanges (first b / 16)).2 ≤ hicb ∧
        0xC2 ≤ b) := by
  unfold first
  split_ifs <;> simp [as, xx, s1, s2, s3, s4, s5, s6, s7, acceptRanges, locb, hicb] <;> omega

theorem first_ascii (b : Nat) : first b = as ↔ b < 0x80 := by
  unfold first
  split_ifs <;> simp [as, xx, s1, s2, s3, s4, s5, s6, s7] <;> omega

theorem decode_nil : DecodeRuneInString [] = (RuneError, 0) := by
  simp [DecodeRuneInString]

theorem decode_size_pos (s : GoString) (h : s ≠ []) : 1 ≤ (DecodeRuneInString s).2 := by
  obtain ⟨b, t, rfl⟩ := List.exists_cons_of_ne_nil h
  simp only [DecodeRuneInString]
  split_ifs <;> simp_all

theorem decode_size_le (s : GoString) : (DecodeRuneInString s).2 ≤ s.length := by
  rcases s with _ | ⟨b0, t⟩
  · simp [DecodeRuneInString]
  · rcases first_cases b0 with h | h | ⟨h, hsz, -, -, -⟩
    · simp [DecodeRuneInString, h]
    · simp [DecodeRuneInString, h, as, xx]
    · simp only [DecodeRuneInString]
      split_ifs <;> simp_all <;> omega

theorem decode_append_of_start (s t : GoString) (hs : s ≠ [])
    (ht : ∀ c ∈ t.head?, c < locb ∨ hicb < c) :
    DecodeRuneInString (s ++ t) = DecodeRuneInString s := by
  obtain ⟨b0, s', rfl⟩ := List.exists_cons_of_ne_nil hs
  rcases first_cases b0 with h | h | ⟨h, hsz, hlo, hhi, -⟩
  · simp [DecodeRuneInString, h]
  · simp [DecodeRuneInString, h, as, xx]
  · generalize hx : first b0 = x at *
    generalize hacc : acceptRanges (x / 16) = acc at *
    have hx' : ¬ (x ≥ as) := by omega
    rcases s' with _ | ⟨b1, _ | ⟨b2, _ | ⟨b3, s'⟩⟩⟩ <;> rcases t with _ | ⟨c, t⟩ <;>
      simp [DecodeRuneInString, hx, hacc, hx'] at ht ⊢ <;>
      rcases hsz with hsz | hsz | hsz <;> simp [hsz] <;> intros <;>
      first | omega | (split_ifs <;> first | rfl | omega)

theorem decode_take (s : GoString) (m : Nat) (hm : (DecodeRuneInString s).2 ≤ m) :
    DecodeRuneInString (s.take m) = DecodeRuneInString s := by
  rcases s with _ | ⟨b0, s'⟩
  · simp
  have h1 := decode_size_pos (b0 :: s') (by simp)
  obtain ⟨m, rfl⟩ : ∃ m', m = m' + 1 := ⟨m - 1, by omega⟩
  clear h1
  rcases first_cases b0 with h | h | ⟨h, hsz, hlo, hhi, -⟩
  · simp [DecodeRuneInString, h]
  · simp [DecodeRuneInString, h, as, xx]
  · generalize hx : first b0 = x at *
    generalize hacc : acceptRanges (x / 16) = acc at *
    have hx' : ¬ (x ≥ as) := by omega
    rcases s' with _ | ⟨b1, _ | ⟨b2, _ | ⟨b3, s'⟩⟩⟩ <;>
      rcases m with _ | _ | _ | m <;>
      simp [DecodeRuneInString, hx, hacc, hx'] at hm ⊢ <;>
      rcases hsz with hsz | hsz | hsz <;> simp [hsz] at hm ⊢ <;>
      first | omega | (split_ifs at hm ⊢ <;> first | rfl | omega)

theorem first_lead (b : Nat) (h : first b < as) :
    (first b % 8 = 2 ∧ 0xC2 ≤ b ∧ b < 0xE0 ∧ locb ≤ (acceptRanges (first b / 16)).1) ∨
    (first b % 8 = 3 ∧ 0xE0 ≤ b ∧ b < 0xF0 ∧ locb ≤ (acceptRanges (first b / 16)).1 ∧
      (b = 0xE0 → 0xA0 ≤ (acceptRanges (first b / 16)).1)) ∨
    (first b % 8 = 4 ∧ 0xF0 ≤ b ∧ b < 0xF5 ∧ locb ≤ (acceptRanges (first b / 16)).1 ∧
      (b = 0xF0 → 0x90 ≤ (acceptRanges (first b / 16)).1)) := by
  generalize hx : first b = x at *
  unfold first at hx
  split_ifs at hx <;> subst hx <;>
    first
    | exact absurd h (by decide)
    | exact Or.inl ⟨by decide, by omega, by omega, by decide⟩
    | exact Or.inr (Or.inl ⟨by decide, by omega, by omega, by decide, fun _ => by decide⟩)
    | exact Or.inr (Or.inl ⟨by decide, by omega, by omega, by decide, fun hb => by omega⟩)
    | exact Or.inr (Or.inr ⟨by decide, by omega, by omega, by decide, fun _ => by decide⟩)
    | exact Or.inr (Or.inr ⟨by decide, by omega, by omega, by decide, fun hb => by omega⟩)

theorem decode_bytes (b0 : Nat) (s : GoString) :
    ((DecodeRuneInString (b0 :: s)).1 < 0x80 ∧ (DecodeRuneInString (b0 :: s)).2 = 1 ∧
        (DecodeRuneInString (b0 :: s)).1 = b0) ∨
      (0x80 ≤ (DecodeRuneInString (b0 :: s)).1 ∧
        ∀ b ∈ (b0 :: s).take (DecodeRuneInString (b0 :: s)).2, 0x80 ≤ b) := by
  rcases first_cases b0 with h | h | ⟨h, -, -, hhi, hb0⟩
  · left
    have hb := (first_ascii b0).1 h
    simp [DecodeRuneInString, h, as, xx, hb]
  · right
    have hb : ¬ b0 < 0x80 := fun hb => by
      have := (first_ascii b0).2 hb
      simp [as, xx] at *
      omega
    simp [DecodeRuneInString, h, as, xx, RuneError]
    omega
  · right
    have hl := first_lead b0 h
    generalize hx : first b0 = x at *
    generalize hacc : acceptRanges (x / 16) = acc at *
    have hx' : ¬ (x ≥ as) := by omega
    simp only [locb] at hl
    simp only [hicb] at hhi
    rcases s with _ | ⟨b1, _ | ⟨b2, _ | ⟨b3, s⟩⟩⟩ <;>
      simp [DecodeRuneInString, hx, hacc, hx', RuneError, locb, hicb] <;>
      rcases hl with ⟨hsz, hl⟩ | ⟨hsz, hl⟩ | ⟨hsz, hl⟩ <;> simp [hsz] <;>
      first | omega | (split_ifs <;> simp <;> omega)

end utf8
/-! ## The iteration over runes -/

namespace utf8

theorem rangeAux_fuel (fuel₁ : Nat) : ∀ (fuel₂ : Nat) (s : GoString),
    s.length ≤ fuel₁ → s.length ≤ fuel₂ → rangeAux fuel₁ s = rangeAux fuel₂ s := by
  induction fuel₁ with
  | zero =>
    intro fuel₂ s h₁ _
    have hs : s = [] := List.length_eq_zero.mp (Nat.le_zero.mp h₁)
    subst hs
    cases fuel₂ <;> simp [rangeAux]
  | succ n ih =>
    intro fuel₂ s h₁ h₂
    by_cases hs : s = []
    · subst hs
      cases fuel₂ <;> simp [rangeAux]
    · have hpos := decode_size_pos s hs
      have hlen : 0 < s.length := List.length_pos.mpr hs
      obtain ⟨m, rfl⟩ : ∃ m, fuel₂ = m + 1 := ⟨fuel₂ - 1, by omega⟩
      simp only [rangeAux, hs, if_false]
      rw [ih m (s.drop (DecodeRuneInString s).2) (by simp; omega) (by simp; omega)]

theorem range_nil : range [] = [] := by
  simp [range, rangeAux]

theorem range_of_ne_nil (s : GoString) (hs : s ≠ []) :
    range s = ((DecodeRuneInString s).1, s.take (DecodeRuneInString s).2) ::
      range (s.drop (DecodeRuneInString s).2) := by
  have hpos := decode_size_pos s hs
  have hlen : 0 < s.length := List.length_pos.mpr hs
  obtain ⟨m, hm⟩ : ∃ m, s.length = m + 1 := ⟨s.length - 1, by omega⟩
  unfold range
  rw [hm]
  simp only [rangeAux, hs, if_false]
  rw [rangeAux_fuel m _ _ (by simp; omega) (le_refl _)]

theorem range_induction {P : GoString → Prop} (nil : P [])
    (step : ∀ s, s ≠ [] → P (s.drop (DecodeRuneInString s).2) → P s) : ∀ s, P s := by
  have key : ∀ n (s : GoString), s.length = n → P s := by
    intro n
    induction n using Nat.strong_induction_on with
    | _ n ih =>
      intro s h
      by_cases hs : s = []
      · subst hs; exact nil
      · have hpos := decode_size_pos s hs
        have hlen : 0 < s.length := List.length_pos.mpr hs
        exact step s hs (ih _ (by simp; omega) _ rfl)
  exact fun s => key _ s rfl

theorem range_flatten (s : GoString) : ((range s).map Prod.snd).flatten = s := by
  induction s using range_induction with
  | nil => simp [range_nil]
  | step s hs ih =>
    rw [range_of_ne_nil s hs]
    simp [ih]

theorem range_append_of_start (c : Nat) (B : GoString) (hc : c < locb ∨ hicb < c)
    (A : GoString) : range (A ++ c :: B) = range A ++ range (c :: B) := by
  induction A using range_induction with
  | nil => simp [range_nil]
  | step s hs ih =>
    have hd : DecodeRuneInString (s ++ c :: B) = DecodeRuneInString s :=
      decode_append_of_start s (c :: B) hs (by simpa using hc)
    have hle := decode_size_le s
    rw [range_of_ne_nil (s ++ c :: B) (by simp [hs]), range_of_ne_nil s hs, hd,
      List.take_append_of_le_length hle, List.drop_append_of_le_length hle, ih]
    simp

theorem range_prefix_closed (s : GoString) : ∀ (P Q : List (Nat × GoString)),
    range s = P ++ Q → range (P.map Prod.snd).flatten = P := by
  induction s using range_induction with
  | nil =>
    intro P Q h
    rw [range_nil] at h
    have : P = [] := by
      cases P <;> simp_all
    subst this
    simp [range_nil]
  | step s hs ih =>
    intro P Q h
    rw [range_of_ne_nil s hs] at h
    rcases P with _ | ⟨c, P'⟩
    · simp [range_nil]
    · simp only [List.cons_append, List.cons.injEq] at h
      obtain ⟨hc, hrest⟩ := h
      have ih' := ih P' Q hrest
      set k := (DecodeRuneInString s).2 with hk
      have hle : k ≤ s.length := decode_size_le s
      set u := (P'.map Prod.snd).flatten with hu
      have hu_pre : s.drop k = u ++ (Q.map Prod.snd).flatten := by
        have := range_flatten (s.drop k)
        rw [hrest] at this
        simp at this
        rw [← this]
      have hsu : s.take k ++ u = s.take (k + u.length) := by
        rw [List.take_add, hu_pre]
        simp
      have hd : DecodeRuneInString (s.take k ++ u) = DecodeRuneInString s := by
        rw [hsu]; exact decode_take s _ (by omega)
      have hne : s.take k ++ u ≠ [] := by
        have hpos := decode_size_pos s hs
        have : 0 < (s.take k).length := by
          simp [List.length_take]; exact ⟨by omega, List.length_pos.mpr hs⟩
        intro h0
        rw [List.append_eq_nil] at h0
        rw [h0.1] at this; simp at this
      have hlenk : (s.take k).length = k := by simp [hle]
      simp only [List.map_cons, List.flatten_cons, ← hc]
      rw [range_of_ne_nil _ hne, hd]
      have e1 : (s.take k ++ u).take k = s.take k := by
        rw [List.take_append_of_le_length (by omega), List.take_of_length_le (by omega)]
      have e2 : (s.take k ++ u).drop k = u := by
        rw [List.drop_append_of_le_length (by omega), List.drop_of_length_le (by omega)]
        simp
      rw [show (DecodeRuneInString s).2 = k from rfl, e1, e2, ih']

theorem range_suffix_closed (P : List (Nat × GoString)) : ∀ (s : GoString)
    (Q : List (Nat × GoString)), range s = P ++ Q → range (Q.map Prod.snd).flatten = Q := by
  induction P with
  | nil =>
    intro s Q h
    simp only [List.nil_append] at h
    rw [← h, range_flatten]
  | cons c P ih =>
    intro s Q h
    have hs : s ≠ [] := by
      rintro rfl
      simp [range_nil] at h
    rw [range_of_ne_nil s hs] at h
    simp only [List.cons_append, List.cons.injEq] at h
    exact ih _ Q h.2

end utf8
namespace utf8

theorem range_bytes (s : GoString) : ∀ c ∈ range s,
    (c.1 < 0x80 ∧ c.2 = [c.1]) ∨ (0x80 ≤ c.1 ∧ c.2 ≠ [] ∧ ∀ b ∈ c.2, 0x80 ≤ b) := by
  induction s using range_induction with
  | nil => simp [range_nil]
  | step s hs ih =>
    obtain ⟨b0, t, rfl⟩ := List.exists_cons_of_ne_nil hs
    rw [range_of_ne_nil _ hs]
    intro c hc
    rcases List.mem_cons.mp hc with rfl | hc
    · rcases decode_bytes b0 t with ⟨h1, h2, h3⟩ | ⟨h1, h2⟩
      · left
        refine ⟨h1, ?_⟩
        simp only [h2, h3]
        simp
      · right
        refine ⟨h1, ?_, h2⟩
        have hpos := decode_size_pos (b0 :: t) hs
        obtain ⟨m, hm⟩ : ∃ m, (DecodeRuneInString (b0 :: t)).2 = m + 1 :=
          ⟨(DecodeRuneInString (b0 :: t)).2 - 1, by omega⟩
        simp [hm]
    · exact ih c hc

theorem range_length_le (s : GoString) : (range s).length ≤ s.length := by
  induction s using range_induction with
  | nil => simp [range_nil]
  | step s hs ih =>
    have hpos := decode_size_pos s hs
    have hlen : 0 < s.length := List.length_pos.mpr hs
    rw [range_of_ne_nil _ hs]
    simp only [List.length_cons, List.length_drop] at ih ⊢
    omega

theorem range_ascii_cons (b : Nat) (hb : b < 0x80) (s : GoString) :
    range (b :: s) = (b, [b]) :: range s := by
  rw [range_of_ne_nil _ (by simp)]
  have h := (first_ascii b).2 hb
  simp [DecodeRuneInString, h, as, xx]

end utf8

namespace unicode

theorem IsSpace_RuneError : IsSpace utf8.RuneError = false := by decide

theorem IsSpace_newline : IsSpace 0x0A = true := by decide

end unicode
/-! ## Decoding backwards -/

namespace utf8

theorem RuneStart_iff (b : Nat) : RuneStart b = true ↔ (b < locb ∨ hicb < b) := by
  simp only [RuneStart, locb, hicb, decide_eq_true_eq]
  omega

theorem RuneStart_false_iff (b : Nat) : RuneStart b = false ↔ (locb ≤ b ∧ b ≤ hicb) := by
  rw [← Bool.not_eq_true, RuneStart_iff]
  omega

theorem decode_size_le_four (s : GoString) : (DecodeRuneInString s).2 ≤ 4 := by
  simp only [DecodeRuneInString]
  split_ifs <;> simp

theorem decode_cont (c : Nat) (t : GoString) (hc : RuneStart c = false) :
    DecodeRuneInString (c :: t) = (RuneError, 1) := by
  rw [RuneStart_false_iff] at hc
  have h : first c = xx := by
    unfold first locb hicb at *
    split_ifs <;> first | rfl | omega
  simp [DecodeRuneInString, h, as, xx]

theorem decode_single_high (b : Nat) (hb : 0x80 ≤ b) :
    DecodeRuneInString [b] = (RuneError, 1) := by
  rcases first_cases b with h | h | ⟨h, hsz, -, -, -⟩
  · have := (first_ascii b).1 h
    omega
  · simp [DecodeRuneInString, h, as, xx]
  · have hx : ¬ (as ≤ first b) := by omega
    rcases hsz with hsz | hsz | hsz <;> simp [DecodeRuneInString, hx, hsz]

/-- A run of continuation bytes followed by a byte that is not ASCII decodes byte by
byte. -/
theorem range_conts (b : Nat) (hb : 0x80 ≤ b) : ∀ C : GoString,
    (∀ c ∈ C, RuneStart c = false) →
      ∃ init, range (C ++ [b]) = init ++ [(RuneError, [b])] := by
  intro C
  induction C with
  | nil =>
    intro _
    refine ⟨[], ?_⟩
    rw [List.nil_append, range_of_ne_nil _ (by simp), decode_single_high b hb]
    simp [range_nil]
  | cons c C ih =>
    intro h
    obtain ⟨init, hinit⟩ := ih (fun x hx => h x (List.mem_cons_of_mem _ hx))
    refine ⟨(RuneError, [c]) :: init, ?_⟩
    rw [List.cons_append, range_of_ne_nil _ (by simp),
      decode_cont c _ (h c (List.mem_cons_self _ _))]
    simp [hinit]

/-- After a rune that stops short of the end of `x :: C ++ [b]`, the rest decodes byte by
byte. -/
theorem range_short (x b : Nat) (C : GoString) (hb : 0x80 ≤ b)
    (hC : ∀ c ∈ C, RuneStart c = false)
    (hsz : (DecodeRuneInString (x :: (C ++ [b]))).2 ≠ (x :: (C ++ [b])).length) :
    ∃ init, range (x :: (C ++ [b])) = init ++ [(RuneError, [b])] := by
  have hpos := decode_size_pos (x :: (C ++ [b])) (by simp)
  have hle := decode_size_le (x :: (C ++ [b]))
  obtain ⟨k, hk⟩ : ∃ k, (DecodeRuneInString (x :: (C ++ [b]))).2 = k + 1 :=
    ⟨(DecodeRuneInString (x :: (C ++ [b]))).2 - 1, by omega⟩
  have hkC : k ≤ C.length := by
    simp only [List.length_cons, List.length_append, List.length_singleton,
      List.length_nil] at hle hsz
    omega
  obtain ⟨init, hinit⟩ := range_conts b hb (C.drop k)
    (fun c hc => hC c (List.mem_of_mem_drop hc))
  rw [range_of_ne_nil _ (by simp), hk, List.drop_succ_cons,
    List.drop_append_of_le_length hkC, hinit]
  exact ⟨_ :: init, rfl⟩

/-- Behind three continuation bytes a byte that is not ASCII is a rune of its own. -/
theorem range_tail (b : Nat) (hb : 0x80 ≤ b) (C : GoString)
    (hC : ∀ c ∈ C, RuneStart c = false) (hlen : 3 ≤ C.length) :
    ∀ (n : Nat) (A : GoString), A.length = n →
      ∃ init, range (A ++ (C ++ [b])) = init ++ [(RuneError, [b])] := by
  intro n
  induction n using Nat.strong_induction_on with
  | _ n ih =>
    intro A hA
    by_cases hnil : A = []
    · subst hnil
      exact range_conts b hb C hC
    · have hne : A ++ (C ++ [b]) ≠ [] := by simp [hnil]
      have hpos := decode_size_pos _ hne
      have h4 := decode_size_le_four (A ++ (C ++ [b]))
      have hApos : 0 < A.length := List.length_pos.mpr hnil
      rw [range_of_ne_nil _ hne]
      by_cases hk : (DecodeRuneInString (A ++ (C ++ [b]))).2 ≤ A.length
      · obtain ⟨init, hinit⟩ := ih (A.drop (DecodeRuneInString (A ++ (C ++ [b]))).2).length
          (by simp; omega) _ rfl
        rw [List.drop_append_of_le_length hk, hinit]
        exact ⟨_ :: init, rfl⟩
      · obtain ⟨init, hinit⟩ := range_conts b hb
          (C.drop ((DecodeRuneInString (A ++ (C ++ [b]))).2 - A.length))
          (fun c hc => hC c (List.mem_of_mem_drop hc))
        rw [List.drop_append_eq_append_drop, List.drop_eq_nil_of_le (by omega),
          List.nil_append, List.drop_append_of_le_length (by omega), hinit]
        exact ⟨_ :: init, rfl⟩


theorem lastRuneStart_spec (s : GoString) (lim : Int) : ∀ (fuel : Nat) (start : Int),
    lim ≤ start + 1 → start + 1 - lim ≤ fuel →
      lim - 1 ≤ lastRuneStart s lim fuel start ∧ lastRuneStart s lim fuel start ≤ start ∧
      (∀ j : Int, lastRuneStart s lim fuel start < j → j ≤ start →
        RuneStart (s.getD j.toNat 0) = false) ∧
      (lim ≤ lastRuneStart s lim fuel start →
        RuneStart (s.getD (lastRuneStart s lim fuel start).toNat 0) = true) := by
  intro fuel
  induction fuel with
  | zero =>
    intro start h1 h2
    simp only [lastRuneStart]
    refine ⟨by omega, le_refl _, fun j hj1 hj2 => by omega, fun h => by omega⟩
  | succ n ih =>
    intro start h1 h2
    rw [lastRuneStart]
    by_cases hge : start ≥ lim
    · rw [if_pos hge]
      by_cases hrs : RuneStart (s.getD start.toNat 0) = true
      · rw [if_pos hrs]
        exact ⟨by omega, le_refl _, fun j hj1 hj2 => by omega, fun _ => hrs⟩
      · rw [if_neg hrs]
        obtain ⟨i1, i2, i3, i4⟩ := ih (start - 1) (by omega) (by omega)
        refine ⟨i1, by omega, ?_, i4⟩
        intro j hj1 hj2
        by_cases hj : j = start
        · subst hj
          simpa using hrs
        · exact i3 j hj1 (by omega)
    · rw [if_neg hge]
      refine ⟨by omega, le_refl _, fun j hj1 hj2 => by omega, fun h => by omega⟩

/-- A string whose bytes from index `q` up to the last but one are continuation bytes. -/
theorem zone_decomp (s : GoString) (q : Nat) (hq : q + 1 ≤ s.length)
    (hz : ∀ j : Nat, q ≤ j → j + 2 ≤ s.length → RuneStart (s.getD j 0) = false) :
    ∃ C, s = s.take q ++ (C ++ [s.getD (s.length - 1) 0]) ∧ C.length + q + 1 = s.length ∧
      ∀ c ∈ C, RuneStart c = false := by
  have hne : s.drop q ≠ [] := by
    intro h
    have := congrArg List.length h
    simp at this
    omega
  refine ⟨(s.drop q).dropLast, ?_, ?_, ?_⟩
  · have hlast : (s.drop q).getLast hne = s.getD (s.length - 1) 0 := by
      rw [List.getLast_eq_getElem, List.getD_eq_getElem _ _ (by omega), List.getElem_drop]
      congr 1
      simp
      omega
    rw [← hlast, List.dropLast_append_getLast, List.take_append_drop]
  · simp
    omega
  · intro c hc
    rw [List.dropLast_eq_take] at hc
    obtain ⟨i, hi, rfl⟩ := List.mem_iff_getElem.mp hc
    simp only [List.length_take, List.length_drop] at hi
    rw [List.getElem_take, List.getElem_drop]
    have := hz (q + i) (by omega) (by omega)
    rwa [List.getD_eq_getElem _ _ (by omega)] at this


theorem decodeLast_unfold (s : GoString) (hs : s ≠ []) :
    DecodeLastRuneInString s =
      if s.getD (s.length - 1) 0 < RuneSelf then (s.getD (s.length - 1) 0, 1)
      else
        if ((if lastRuneStart s (if (s.length : Int) - 4 < 0 then 0 else (s.length : Int) - 4) 4
              ((s.length : Int) - 2) < 0 then 0
            else lastRuneStart s (if (s.length : Int) - 4 < 0 then 0 else (s.length : Int) - 4) 4
              ((s.length : Int) - 2)).toNat +
            (DecodeRuneInString (s.drop (if lastRuneStart s
              (if (s.length : Int) - 4 < 0 then 0 else (s.length : Int) - 4) 4
              ((s.length : Int) - 2) < 0 then 0
            else lastRuneStart s (if (s.length : Int) - 4 < 0 then 0 else (s.length : Int) - 4) 4
              ((s.length : Int) - 2)).toNat)).2 ≠ s.length)
        then (RuneError, 1)
        else DecodeRuneInString (s.drop (if lastRuneStart s
              (if (s.length : Int) - 4 < 0 then 0 else (s.length : Int) - 4) 4
              ((s.length : Int) - 2) < 0 then 0
            else lastRuneStart s (if (s.length : Int) - 4 < 0 then 0 else (s.length : Int) - 4) 4
              ((s.length : Int) - 2)).toNat) := by
  have hlen : 0 < s.length := List.length_pos.mpr hs
  have h0 : ¬ ((s.length : Int) = 0) := by omega
  have h1 : ((s.length : Int) - 1).toNat = s.length - 1 := by omega
  have h2 : (s.length : Int) - 1 - 1 = (s.length : Int) - 2 := by omega
  unfold DecodeLastRuneInString
  simp only [h0, if_false, h1, h2, UTFMax, Nat.cast_ofNat]
  split_ifs <;> first | rfl | omega


/-- Decoding backwards finds the last rune of the forward iteration: its value and the
number of its bytes. -/
theorem decodeLast_eq_last_rune (s : GoString) (hs : s ≠ []) :
    ∃ init bs, range s = init ++ [((DecodeLastRuneInString s).1, bs)] ∧
      (DecodeLastRuneInString s).2 = bs.length := by
  have hlen : 0 < s.length := List.length_pos.mpr hs
  have hsplit : s = s.dropLast ++ [s.getD (s.length - 1) 0] := by
    have hl : s.getLast hs = s.getD (s.length - 1) 0 := by
      rw [List.getLast_eq_getElem, List.getD_eq_getElem _ _ (by omega)]
    rw [← hl, List.dropLast_append_getLast]
  rw [decodeLast_unfold s hs]
  generalize hb : s.getD (s.length - 1) 0 = b at hsplit ⊢
  by_cases hascii : b < RuneSelf
  · rw [if_pos hascii]
    refine ⟨range s.dropLast, [b], ?_, rfl⟩
    conv_lhs => rw [hsplit]
    rw [range_append_of_start b [] (Or.inl hascii), range_ascii_cons b hascii, range_nil]
  · rw [if_neg hascii]
    have hhigh : 0x80 ≤ b := by simp only [RuneSelf] at hascii; omega
    generalize hlim : (if (s.length : Int) - 4 < 0 then 0 else (s.length : Int) - 4) = lim
    have hlim' : lim = 0 ∧ s.length ≤ 4 ∨ lim = (s.length : Int) - 4 ∧ 4 < s.length := by
      rw [← hlim]; split_ifs <;> omega
    obtain ⟨p1, p2, p3, p4⟩ := lastRuneStart_spec s lim 4 ((s.length : Int) - 2)
      (by omega) (by omega)
    generalize lastRuneStart s lim 4 ((s.length : Int) - 2) = p at p1 p2 p3 p4 ⊢
    by_cases hfound : lim ≤ p
    · -- the loop stopped at the first byte of a rune
      have hp0 : ¬ p < 0 := by omega
      simp only [hp0, if_false]
      have hx := p4 hfound
      generalize ha : p.toNat = a at hx ⊢
      obtain ⟨C, hC1, hC2, hC3⟩ := zone_decomp s (a + 1) (by omega) (fun j hj1 hj2 => by
        have := p3 (j : Int) (by omega) (by omega)
        simpa using this)
      rw [hb] at hC1
      have htake : s.take (a + 1) = s.take a ++ [s.getD a 0] := by
        rw [List.take_succ, List.getD_eq_getElem?_getD]
        have : a < s.length := by omega
        simp [List.getElem?_eq_getElem this]
      generalize s.getD a 0 = x at hx htake
      have hs' : s = s.take a ++ x :: (C ++ [b]) := by
        conv_lhs => rw [hC1, htake]
        simp
      have hdrop : s.drop a = x :: (C ++ [b]) := by
        conv_lhs => rw [hs']
        rw [List.drop_append_of_le_length (by simp; omega), List.drop_of_length_le (by simp)]
        simp
      have hrange : range s = range (s.take a) ++ range (x :: (C ++ [b])) := by
        conv_lhs => rw [hs']
        exact range_append_of_start x _ ((RuneStart_iff x).1 hx) _
      rw [hdrop]
      have hwlen : (x :: (C ++ [b])).length + a = s.length := by
        simp; omega
      by_cases hsz : a + (DecodeRuneInString (x :: (C ++ [b]))).2 ≠ s.length
      · rw [if_pos hsz]
        obtain ⟨init, hinit⟩ := range_short x b C hhigh hC3 (by omega)
        exact ⟨range (s.take a) ++ init, [b], by rw [hrange, hinit, List.append_assoc], rfl⟩
      · rw [if_neg hsz]
        have hsz' : (DecodeRuneInString (x :: (C ++ [b]))).2 = (x :: (C ++ [b])).length := by
          omega
        refine ⟨range (s.take a), x :: (C ++ [b]), ?_, hsz'⟩
        rw [hrange, range_of_ne_nil (x :: (C ++ [b])) (by simp), hsz', List.take_length,
          List.drop_length, range_nil]
    · -- no first byte among the last four
      have hp : p = lim - 1 := by omega
      rcases hlim' with ⟨hl0, hle⟩ | ⟨hl4, hgt⟩
      · have hp0 : p < 0 := by omega
        simp only [hp0, if_true, Int.toNat_zero, List.drop_zero, Nat.zero_add]
        obtain ⟨C, hC1, hC2, hC3⟩ := zone_decomp s 0 (by omega) (fun j hj1 hj2 => by
          have := p3 (j : Int) (by omega) (by omega)
          simpa using this)
        rw [hb, List.take_zero, List.nil_append] at hC1
        by_cases hsz : (DecodeRuneInString s).2 ≠ s.length
        · rw [if_pos hsz]
          obtain ⟨init, hinit⟩ := range_conts b hhigh C hC3
          exact ⟨init, [b], by rw [hC1, hinit], rfl⟩
        · rw [if_neg hsz]
          have hsz' : (DecodeRuneInString s).2 = s.length := by omega
          refine ⟨[], s, ?_, hsz'⟩
          rw [range_of_ne_nil s hs, hsz', List.take_length, List.drop_length, range_nil]
          rfl
      · have hp0 : ¬ p < 0 := by omega
        simp only [hp0, if_false]
        have h4 := decode_size_le_four (s.drop p.toNat)
        rw [if_pos (by omega)]
        obtain ⟨C, hC1, hC2, hC3⟩ := zone_decomp s (s.length - 4) (by omega)
          (fun j hj1 hj2 => by
            have := p3 (j : Int) (by omega) (by omega)
            simpa using this)
        rw [hb] at hC1
        obtain ⟨init, hinit⟩ := range_tail b hhigh C hC3 (by omega) _
          (s.take (s.length - 4)) rfl
        exact ⟨init, [b], by rw [hC1, hinit], rfl⟩


end utf8

/-! ## Trimming -/

namespace strings

open utf8

/-- The bytes of a list of decoded runes. -/
theorem bytes_append (P Q : List (Nat × GoString)) :
    ((P ++ Q).map Prod.snd).flatten = (P.map Prod.snd).flatten ++ (Q.map Prod.snd).flatten := by
  simp

theorem indexFuncAux_false (f : Nat → Bool) : ∀ (cs : List (Nat × GoString)) (i : Nat),
    (cs.dropWhile (fun c => f c.1) = [] ∧ indexFuncAux f false cs i = -1) ∨
    (cs.dropWhile (fun c => f c.1) ≠ [] ∧ indexFuncAux f false cs i =
      ((i + (((cs.takeWhile (fun c => f c.1)).map Prod.snd).flatten).length : Nat) : Int)) := by
  intro cs
  induction cs with
  | nil => intro i; left; simp [indexFuncAux]
  | cons c cs ih =>
    intro i
    obtain ⟨r, bs⟩ := c
    by_cases hf : f r = true
    · rcases ih (i + bs.length) with ⟨h1, h2⟩ | ⟨h1, h2⟩
      · left
        simp [indexFuncAux, hf, h1, h2]
      · right
        refine ⟨by simp [hf, h1], ?_⟩
        simp [indexFuncAux, hf, h2, List.takeWhile_cons]
        omega
    · right
      simp [indexFuncAux, hf, List.takeWhile_cons]

theorem TrimLeftFunc_eq (s : GoString) (f : Nat → Bool) :
    TrimLeftFunc s f = (((range s).dropWhile (fun c => f c.1)).map Prod.snd).flatten := by
  unfold TrimLeftFunc indexFunc
  rcases indexFuncAux_false f (range s) 0 with ⟨h1, h2⟩ | ⟨h1, h2⟩
  · simp [h1, h2]
  · have hs : s = (((range s).takeWhile (fun c => f c.1)).map Prod.snd).flatten ++
        (((range s).dropWhile (fun c => f c.1)).map Prod.snd).flatten := by
      rw [← bytes_append, List.takeWhile_append_dropWhile, range_flatten]
    generalize (((range s).takeWhile (fun c => f c.1)).map Prod.snd).flatten = A at hs h2
    generalize (((range s).dropWhile (fun c => f c.1)).map Prod.snd).flatten = B at hs
    rw [h2]
    have hne : ¬ (((0 + A.length : Nat) : Int) = -1) := by omega
    rw [if_neg hne, Int.toNat_ofNat, Nat.zero_add, hs,
      List.drop_append_of_le_length (le_refl _), List.drop_length, List.nil_append]

theorem rdropWhile_append_rtakeWhile {α : Type} (p : α → Bool) (l : List α) :
    l.rdropWhile p ++ l.rtakeWhile p = l := by
  unfold List.rdropWhile List.rtakeWhile
  rw [← List.reverse_append, List.takeWhile_append_dropWhile, List.reverse_reverse]

theorem lastIndexFuncAux_zero (s : GoString) (f : Nat → Bool) (truth : Bool) (fuel : Nat) :
    lastIndexFuncAux s f truth fuel 0 = -1 := by
  cases fuel <;> simp [lastIndexFuncAux]

/-- The loop of `lastIndexFunc` walks back over the runes of the forward iteration. -/
theorem lastIndexFuncAux_spec (s : GoString) (f : Nat → Bool) :
    ∀ (P : List (Nat × GoString)) (fuel : Nat), range (P.map Prod.snd).flatten = P →
      s.take (P.map Prod.snd).flatten.length = (P.map Prod.snd).flatten →
      (P.map Prod.snd).flatten.length ≤ fuel →
      lastIndexFuncAux s f false fuel ((P.map Prod.snd).flatten.length : Int) =
        if P.rdropWhile (fun c => f c.1) = [] then -1
        else ((((P.rdropWhile (fun c => f c.1)).dropLast.map Prod.snd).flatten.length : Nat)
          : Int) := by
  intro P
  induction P using List.reverseRecOn with
  | nil =>
    intro fuel _ _ _
    simp [lastIndexFuncAux_zero, List.rdropWhile]
  | append_singleton P' c ih =>
    intro fuel hr ht hf
    obtain ⟨r, bs⟩ := c
    have hbytes : ((P' ++ [(r, bs)]).map Prod.snd).flatten =
        (P'.map Prod.snd).flatten ++ bs := by simp
    rw [hbytes] at hr ht hf ⊢
    have hne : (P'.map Prod.snd).flatten ++ bs ≠ [] := by
      intro h
      rw [h, range_nil] at hr
      simp at hr
    obtain ⟨init, bs', h1, h2⟩ := decodeLast_eq_last_rune _ hne
    rw [hr] at h1
    obtain ⟨hP, hc⟩ := List.append_inj' h1 rfl
    simp only [List.cons.injEq, Prod.mk.injEq, and_true] at hc
    obtain ⟨hr1, hbs⟩ := hc
    subst hbs
    have hbspos : 0 < bs.length := by
      rcases range_bytes _ (r, bs) (by rw [hr]; simp) with ⟨-, hx⟩ | ⟨-, hx, -⟩
      · simp only at hx; rw [hx]; simp
      · exact List.length_pos.mpr hx
    have hP' : range (P'.map Prod.snd).flatten = P' := range_prefix_closed _ _ _ hr
    generalize hA : (P'.map Prod.snd).flatten = A at *
    have htake' : s.take A.length = A := by
      have h3 : (s.take (A ++ bs).length).take A.length = A := by
        rw [ht, List.take_append_of_le_length (le_refl _), List.take_length]
      rw [List.take_take, Nat.min_eq_left (by rw [List.length_append]; omega)] at h3
      exact h3
    simp only [List.length_append] at hf ⊢
    obtain ⟨fuel', rfl⟩ : ∃ m, fuel = m + 1 := ⟨fuel - 1, by omega⟩
    have hi : (((A.length + bs.length : Nat) : Int) > 0) := by omega
    rw [lastIndexFuncAux, if_pos hi]
    simp only [Int.toNat_ofNat]
    rw [← List.length_append, ht]
    have hidx : ((A ++ bs).length : Int) - ((DecodeLastRuneInString (A ++ bs)).2 : Int) =
        ((A.length : Nat) : Int) := by
      rw [h2]; simp
    rw [hidx]
    by_cases hfr : f (DecodeLastRuneInString (A ++ bs)).1 = false
    · rw [if_pos hfr]
      rw [List.rdropWhile_concat_neg _ _ _ (by simp [hr1, hfr]), if_neg (by simp),
        List.dropLast_concat, hA]
    · rw [if_neg hfr]
      rw [ih fuel' hP' htake' (by omega)]
      rw [List.rdropWhile_concat_pos _ _ _ (by simpa [hr1] using hfr)]


theorem lastIndexFunc_eq (s : GoString) (f : Nat → Bool) :
    lastIndexFunc s f false =
      if (range s).rdropWhile (fun c => f c.1) = [] then -1
      else (((((range s).rdropWhile (fun c => f c.1)).dropLast.map Prod.snd).flatten.length
        : Nat) : Int) := by
  have h := lastIndexFuncAux_spec s f (range s) s.length (by rw [range_flatten])
    (by rw [range_flatten, List.take_length]) (by rw [range_flatten])
  rw [range_flatten] at h
  exact h

theorem TrimRightFunc_eq (s : GoString) (f : Nat → Bool) :
    TrimRightFunc s f = (((range s).rdropWhile (fun c => f c.1)).map Prod.snd).flatten := by
  unfold TrimRightFunc
  rw [lastIndexFunc_eq]
  rcases List.eq_nil_or_concat ((range s).rdropWhile (fun c => f c.1)) with h | ⟨R, c, h⟩
  · rw [h]
    simp
  · obtain ⟨r, bs⟩ := c
    rw [List.concat_eq_append] at h
    rw [h, if_neg (by simp), List.dropLast_concat]
    simp only []
    have hcs : range s = R ++ ((r, bs) :: (range s).rtakeWhile (fun c => f c.1)) := by
      conv_lhs => rw [← rdropWhile_append_rtakeWhile (fun c => f c.1) (range s), h]
      simp
    generalize (range s).rtakeWhile (fun c => f c.1) = Q at hcs
    have hs : s = (R.map Prod.snd).flatten ++ (bs ++ (Q.map Prod.snd).flatten) := by
      conv_lhs => rw [← range_flatten s, hcs]
      simp
    have hsuf : range (bs ++ (Q.map Prod.snd).flatten) = (r, bs) :: Q := by
      have := range_suffix_closed R s _ hcs
      simpa using this
    have hmem : (r, bs) ∈ range s := by rw [hcs]; simp
    have hbs : bs ≠ [] := by
      rcases range_bytes s _ hmem with ⟨-, hx⟩ | ⟨-, hx, -⟩
      · simp only at hx; rw [hx]; simp
      · exact hx
    have hne : bs ++ (Q.map Prod.snd).flatten ≠ [] := by simp [hbs]
    rw [range_of_ne_nil _ hne] at hsuf
    simp only [List.cons.injEq, Prod.mk.injEq] at hsuf
    obtain ⟨⟨-, htk⟩, -⟩ := hsuf
    have hwid : (DecodeRuneInString (bs ++ (Q.map Prod.snd).flatten)).2 = bs.length := by
      have hle := decode_size_le (bs ++ (Q.map Prod.snd).flatten)
      have := congrArg List.length htk
      rw [List.length_take] at this
      omega
    generalize hA : (R.map Prod.snd).flatten = A at hs ⊢
    generalize hB : (Q.map Prod.snd).flatten = B at hs hwid
    have hdrop : s.drop A.length = bs ++ B := by
      rw [hs, List.drop_append_of_le_length (le_refl _), List.drop_length, List.nil_append]
    have hget : s.getD A.length 0 = bs.headD 0 := by
      rw [hs, List.getD_append_right _ _ _ _ (le_refl _), Nat.sub_self]
      rcases bs with _ | ⟨b0, bs⟩
      · exact absurd rfl hbs
      · simp
    simp only [Int.toNat_ofNat, hdrop, hwid, hget]
    have hge : ((A.length : Nat) : Int) ≥ 0 := by omega
    have hgoal : ((R ++ [(r, bs)]).map Prod.snd).flatten = A ++ bs := by
      simp [hA]
    rw [hgoal]
    by_cases hhd : bs.headD 0 ≥ RuneSelf
    · rw [if_pos ⟨hge, hhd⟩]
      have e : (((A.length : Nat) : Int) + ((bs.length : Nat) : Int)).toNat =
          (A ++ bs).length := by
        rw [List.length_append]; omega
      rw [e, hs, ← List.append_assoc, List.take_append_of_le_length (le_refl _),
        List.take_length]
    · rw [if_neg (fun hc => hhd hc.2)]
      have hlen1 : bs.length = 1 := by
        rcases range_bytes s _ hmem with ⟨-, hx⟩ | ⟨-, -, hx⟩
        · simp only at hx; rw [hx]; simp
        · exfalso
          apply hhd
          rcases bs with _ | ⟨b0, bs⟩
          · exact absurd rfl hbs
          · have := hx b0 (by simp)
            simpa [RuneSelf] using this
      have e : (((A.length : Nat) : Int) + 1).toNat = (A ++ bs).length := by
        rw [List.length_append]; omega
      rw [e, hs, ← List.append_assoc, List.take_append_of_le_length (le_refl _),
        List.take_length]


theorem range_TrimLeftFunc (s : GoString) (f : Nat → Bool) :
    range (TrimLeftFunc s f) = (range s).dropWhile (fun c => f c.1) := by
  rw [TrimLeftFunc_eq]
  exact range_suffix_closed ((range s).takeWhile (fun c => f c.1)) s _
    (List.takeWhile_append_dropWhile _ _).symm

theorem range_TrimRightFunc (s : GoString) (f : Nat → Bool) :
    range (TrimRightFunc s f) = (range s).rdropWhile (fun c => f c.1) := by
  rw [TrimRightFunc_eq]
  obtain ⟨Q, hQ⟩ := List.rdropWhile_prefix (fun c : Nat × GoString => f c.1) (range s)
  exact range_prefix_closed s _ Q hQ.symm

/-- The runes that `TrimFunc` keeps. -/
theorem range_TrimFunc (s : GoString) (f : Nat → Bool) :
    range (TrimFunc s f) =
      ((range s).dropWhile (fun c => f c.1)).rdropWhile (fun c => f c.1) := by
  unfold TrimFunc
  rw [range_TrimRightFunc, range_TrimLeftFunc]

theorem TrimFunc_eq (s : GoString) (f : Nat → Bool) :
    TrimFunc s f =
      ((((range s).dropWhile (fun c => f c.1)).rdropWhile (fun c => f c.1)).map
        Prod.snd).flatten := by
  rw [← range_TrimFunc, range_flatten]

theorem dropWhile_rdropWhile_dropWhile {α : Type} (p : α → Bool) (l : List α) :
    ((l.dropWhile p).rdropWhile p).dropWhile p = (l.dropWhile p).rdropWhile p := by
  rw [List.dropWhile_eq_self_iff]
  intro hl
  obtain ⟨Q, hQ⟩ := List.rdropWhile_prefix p (l.dropWhile p)
  have h0 : l.dropWhile p ≠ [] := by
    intro h
    rw [h] at hl
    simp [List.rdropWhile] at hl
  have hfix : (l.dropWhile p).dropWhile p = l.dropWhile p := List.dropWhile_idempotent _ _
  rw [List.dropWhile_eq_self_iff] at hfix
  have hlen : 0 < (l.dropWhile p).length := List.length_pos.mpr h0
  have := hfix hlen
  have hget : ((l.dropWhile p).rdropWhile p).get ⟨0, hl⟩ = (l.dropWhile p).get ⟨0, hlen⟩ := by
    simp only [List.get_eq_getElem]
    have hlQ : 0 < ((l.dropWhile p).rdropWhile p ++ Q).length := by
      rw [hQ]; exact hlen
    have h1 : (l.dropWhile p)[0] = ((l.dropWhile p).rdropWhile p ++ Q)[0] := by
      simp [hQ]
    rw [h1, List.getElem_append_left]
  rw [hget]
  exact this

theorem dropWhile_append_of_fixed {α : Type} (p : α → Bool) (l l' : List α) (hne : l ≠ [])
    (h : l.dropWhile p = l) : (l ++ l').dropWhile p = l ++ l' := by
  rcases l with _ | ⟨a, t⟩
  · exact absurd rfl hne
  · have ha : ¬ p a = true := by
      rw [List.dropWhile_eq_self_iff] at h
      simpa using h (by simp)
    simp [List.dropWhile_cons, ha]

theorem rdropWhile_append_of_fixed {α : Type} (p : α → Bool) (l l' : List α) (hne : l ≠ [])
    (h : l.rdropWhile p = l) : (l' ++ l).rdropWhile p = l' ++ l := by
  rw [List.rdropWhile_eq_self_iff] at h ⊢
  intro hl
  rw [List.getLast_append_of_ne_nil hne]
  exact h hne

theorem TrimFunc_idem (s : GoString) (f : Nat → Bool) :
    TrimFunc (TrimFunc s f) f = TrimFunc s f := by
  conv_lhs => rw [TrimFunc_eq, range_TrimFunc]
  rw [dropWhile_rdropWhile_dropWhile, List.rdropWhile_idempotent, ← TrimFunc_eq]

theorem range_ne_nil (u : GoString) (hu : u ≠ []) : range u ≠ [] := by
  intro h
  apply hu
  rw [← range_flatten u, h]
  simp

/-- A string that `TrimFunc` leaves alone starts and ends with a rune outside `f`. -/
theorem range_fixed_of_TrimFunc (u : GoString) (f : Nat → Bool) (h : TrimFunc u f = u) :
    (range u).dropWhile (fun c => f c.1) = range u ∧
      (range u).rdropWhile (fun c => f c.1) = range u := by
  have hr := range_TrimFunc u f
  rw [h] at hr
  constructor
  · rw [hr, dropWhile_rdropWhile_dropWhile]
  · conv_lhs => rw [hr]
    rw [List.rdropWhile_idempotent, ← hr]

theorem TrimFunc_of_range_fixed (u : GoString) (f : Nat → Bool)
    (h1 : (range u).dropWhile (fun c => f c.1) = range u)
    (h2 : (range u).rdropWhile (fun c => f c.1) = range u) : TrimFunc u f = u := by
  rw [TrimFunc_eq, h1, h2, range_flatten]

theorem asciiSpace_eq (c : Nat) (hc : c < 0x80) : asciiSpace c = unicode.IsSpace c := by
  have h : c ≤ 0xFF := by omega
  simp only [asciiSpace, unicode.IsSpace, h, if_true]
  have h1 : ¬ c = 0x85 := by omega
  have h2 : ¬ c = 0xA0 := by omega
  simp [h1, h2]

theorem trimSpaceStop_eq (t : GoString) : ∀ n, n ≤ t.length →
    trimSpaceStop t n =
      (((range (t.take n)).rdropWhile (fun c => unicode.IsSpace c.1)).map Prod.snd).flatten := by
  intro n
  induction n with
  | zero => intro _; simp [trimSpaceStop, range_nil, List.rdropWhile]
  | succ n ih =>
    intro hn
    rw [trimSpaceStop]
    by_cases hc : t.getD n 0 ≥ RuneSelf
    · rw [if_pos hc, TrimRightFunc_eq]
    · rw [if_neg hc]
      have hlt : t.getD n 0 < 0x80 := by simp only [RuneSelf] at hc; omega
      have htake : t.take (n + 1) = t.take n ++ [t.getD n 0] := by
        rw [List.take_succ, List.getD_eq_getElem?_getD]
        have : n < t.length := by omega
        simp [List.getElem?_eq_getElem this]
      have hr : range (t.take (n + 1)) = range (t.take n) ++ [(t.getD n 0, [t.getD n 0])] := by
        rw [htake, range_append_of_start _ [] (Or.inl hlt), range_ascii_cons _ hlt, range_nil]
      rw [hr, asciiSpace_eq _ hlt]
      by_cases hsp : unicode.IsSpace (t.getD n 0) = true
      · rw [if_pos hsp, ih (by omega),
          List.rdropWhile_concat_pos (fun c : Nat × GoString => unicode.IsSpace c.1) _ _ hsp]
      · rw [if_neg hsp,
          List.rdropWhile_concat_neg (fun c : Nat × GoString => unicode.IsSpace c.1) _ _ hsp,
          ← hr, range_flatten]


/-- The fast path of `TrimSpace` for ASCII computes what `TrimFunc` computes. -/
theorem TrimSpace_eq_TrimFunc : ∀ s : GoString, TrimSpace s = TrimFunc s unicode.IsSpace := by
  intro s
  induction s with
  | nil => rw [TrimSpace, TrimFunc_eq, range_nil]; rfl
  | cons c t ih =>
    rw [TrimSpace]
    by_cases hc : c ≥ RuneSelf
    · rw [if_pos hc]
    · rw [if_neg hc]
      have hlt : c < 0x80 := by simp only [RuneSelf] at hc; omega
      rw [asciiSpace_eq _ hlt]
      by_cases hsp : unicode.IsSpace c = true
      · rw [if_pos hsp, ih, TrimFunc_eq, TrimFunc_eq, range_ascii_cons c hlt,
          List.dropWhile_cons_of_pos (by simpa using hsp)]
      · rw [if_neg hsp, trimSpaceStop_eq _ _ (le_refl _), List.take_length, TrimFunc_eq,
          range_ascii_cons c hlt, List.dropWhile_cons_of_neg (by simpa using hsp)]


theorem ascii_newlines : ascii "\n\n" = [0x0A, 0x0A] := by decide

theorem TrimSpace_nil : TrimSpace [] = [] := by decide

theorem TrimSpace_idem (s : GoString) : TrimSpace (TrimSpace s) = TrimSpace s := by
  simp only [TrimSpace_eq_TrimFunc]
  exact TrimFunc_idem s unicode.IsSpace

theorem range_newlines_append (b : GoString) :
    range (0x0A :: 0x0A :: b) = (0x0A, [0x0A]) :: (0x0A, [0x0A]) :: range b := by
  rw [range_ascii_cons _ (by decide), range_ascii_cons _ (by decide)]

theorem range_append_newlines (a b : GoString) :
    range (a ++ 0x0A :: 0x0A :: b) = range a ++ (0x0A, [0x0A]) :: (0x0A, [0x0A]) :: range b := by
  rw [range_append_of_start 0x0A _ (Or.inl (by decide)), range_newlines_append]

/-- A trimmed, non-empty string followed by the separator trims back to itself. -/
theorem TrimSpace_append_newlines (u : GoString) (hu : TrimSpace u = u) (hne : u ≠ []) :
    TrimSpace (u ++ ascii "\n\n") = u := by
  obtain ⟨h1, h2⟩ := range_fixed_of_TrimFunc u _ (by rw [← TrimSpace_eq_TrimFunc]; exact hu)
  have hr := range_ne_nil u hne
  rw [TrimSpace_eq_TrimFunc]
  rw [TrimFunc_eq, ascii_newlines, range_append_newlines, range_nil,
    dropWhile_append_of_fixed _ _ _ hr h1]
  have e : range u ++ [(0x0A, [0x0A]), (0x0A, [0x0A])] =
      (range u ++ [(0x0A, [0x0A])]) ++ [(0x0A, [0x0A])] := by simp
  rw [e, List.rdropWhile_concat_pos _ _ _ (by decide), List.rdropWhile_concat_pos _ _ _ (by decide),
    h2, range_flatten]

/-- Two trimmed, non-empty strings joined by the separator form a trimmed string. -/
theorem TrimSpace_join (a b : GoString) (ha : TrimSpace a = a) (hane : a ≠ [])
    (hb : TrimSpace b = b) (hbne : b ≠ []) :
    TrimSpace (a ++ ascii "\n\n" ++ b) = a ++ ascii "\n\n" ++ b := by
  obtain ⟨h1, -⟩ := range_fixed_of_TrimFunc a _ (by rw [← TrimSpace_eq_TrimFunc]; exact ha)
  obtain ⟨-, h2⟩ := range_fixed_of_TrimFunc b _ (by rw [← TrimSpace_eq_TrimFunc]; exact hb)
  rw [TrimSpace_eq_TrimFunc]
  apply TrimFunc_of_range_fixed
  · rw [ascii_newlines, List.append_assoc]
    simp only [List.cons_append, List.nil_append]
    rw [range_append_newlines]
    exact dropWhile_append_of_fixed _ _ _ (range_ne_nil a hane) h1
  · rw [ascii_newlines, List.append_assoc]
    simp only [List.cons_append, List.nil_append]
    rw [range_append_newlines]
    have e : range a ++ (0x0A, [0x0A]) :: (0x0A, [0x0A]) :: range b =
        (range a ++ [(0x0A, [0x0A]), (0x0A, [0x0A])]) ++ range b := by simp
    rw [e]
    exact rdropWhile_append_of_fixed _ _ _ (range_ne_nil b hbne) h2

/-- What `TrimSpace` removes: a prefix and a suffix made of white space only. -/
theorem TrimSpace_decomp (s : GoString) :
    ∃ pre post : GoString, s = pre ++ TrimSpace s ++ post ∧
      (∀ c ∈ range pre, unicode.IsSpace c.1 = true) ∧
      (∀ c ∈ range post, unicode.IsSpace c.1 = true) := by
  set p : Nat × GoString → Bool := fun c => unicode.IsSpace c.1 with hp
  have e1 : range s = (range s).takeWhile p ++ (range s).dropWhile p :=
    (List.takeWhile_append_dropWhile _ _).symm
  have e2 : (range s).dropWhile p =
      ((range s).dropWhile p).rdropWhile p ++ ((range s).dropWhile p).rtakeWhile p :=
    (rdropWhile_append_rtakeWhile _ _).symm
  refine ⟨(((range s).takeWhile p).map Prod.snd).flatten,
    ((((range s).dropWhile p).rtakeWhile p).map Prod.snd).flatten, ?_, ?_, ?_⟩
  · rw [TrimSpace_eq_TrimFunc]
    rw [TrimFunc_eq, List.append_assoc, ← bytes_append, ← e2, ← bytes_append, ← e1,
      range_flatten]
  · rw [range_prefix_closed s _ _ e1]
    intro c hc
    exact @List.mem_takeWhile_imp _ p _ _ hc
  · have e3 : range s = ((range s).takeWhile p ++ ((range s).dropWhile p).rdropWhile p) ++
        ((range s).dropWhile p).rtakeWhile p := by
      rw [List.append_assoc, ← e2, ← e1]
    rw [range_suffix_closed _ s _ e3]
    intro c hc
    exact @List.mem_rtakeWhile_imp _ p _ _ hc

theorem TrimSpace_length_le (s : GoString) : (TrimSpace s).length ≤ s.length := by
  obtain ⟨pre, post, h, -, -⟩ := TrimSpace_decomp s
  conv_rhs => rw [h]
  simp
  omega

theorem mem_of_mem_TrimSpace (s : GoString) (b : Nat) (hb : b ∈ TrimSpace s) : b ∈ s := by
  obtain ⟨pre, post, h, -, -⟩ := TrimSpace_decomp s
  rw [h]
  simp [hb]

theorem Index_isSome_iff (sub : GoString) : ∀ s : GoString,
    (Index s sub).isSome = true ↔ ∃ a b, s = a ++ sub ++ b := by
  intro s
  induction s with
  | nil =>
    by_cases h : sub = []
    · subst h
      simp [Index]
    · simp only [Index, h, if_false, Option.isSome_none, Bool.false_eq_true, false_iff]
      rintro ⟨a, b, hab⟩
      have := congrArg List.length hab
      simp at this
      exact h (List.length_eq_zero.mp (by omega))
  | cons c t ih =>
    by_cases hp : sub.isPrefixOf (c :: t) = true
    · simp only [Index, hp, if_true, Option.isSome_some, true_iff]
      obtain ⟨b, hb⟩ := List.isPrefixOf_iff_prefix.mp hp
      exact ⟨[], b, by simp [hb]⟩
    · simp only [Index, hp, if_false, Option.isSome_map', Bool.false_eq_true]
      rw [ih]
      constructor
      · rintro ⟨a, b, hab⟩
        exact ⟨c :: a, b, by simp [hab]⟩
      · rintro ⟨a, b, hab⟩
        rcases a with _ | ⟨a0, a⟩
        · exfalso
          apply hp
          exact List.isPrefixOf_iff_prefix.mpr ⟨b, by simp [hab]⟩
        · simp only [List.cons_append, List.cons.injEq] at hab
          exact ⟨a, b, hab.2⟩

theorem Contains_iff (s sub : GoString) :
    Contains s sub = true ↔ ∃ a b, s = a ++ sub ++ b :=
  Index_isSome_iff sub s

/-- A string has a rune that is not white space exactly when trimming leaves something. -/
theorem TrimSpace_ne_nil_iff (s : GoString) :
    TrimSpace s ≠ [] ↔ ∃ c ∈ range s, unicode.IsSpace c.1 = false := by
  constructor
  · intro h
    by_contra hcon
    push_neg at hcon
    apply h
    rw [TrimSpace_eq_TrimFunc]
    rw [TrimFunc_eq]
    have : (range s).dropWhile (fun c => unicode.IsSpace c.1) = [] := by
      rw [List.dropWhile_eq_nil_iff]
      intro c hc
      simpa using hcon c hc
    rw [this]
    simp [List.rdropWhile]
  · rintro ⟨c, hc, hsp⟩ h
    have hr := range_TrimFunc s unicode.IsSpace
    rw [TrimSpace_eq_TrimFunc] at h
    rw [h, range_nil] at hr
    have h1 := List.rdropWhile_eq_nil_iff.mp hr.symm
    have h2 : (range s).dropWhile (fun c => unicode.IsSpace c.1) = [] := by
      rw [← List.dropWhile_idempotent, List.dropWhile_eq_nil_iff]
      exact h1
    rw [List.dropWhile_eq_nil_iff] at h2
    have := h2 c hc
    simp [hsp] at this

end strings
/-! ## The extraction of text -/

open html

mutual
theorem getTextContent_f_eq : ∀ (n : Node) (text : GoString),
    getTextContent.f n text = text ++ n.textData
  | .mk type data attr children, text => by
    rw [getTextContent.f, getTextContent_fChildren_eq children]
    unfold Node.textData
    rw [Node.preorder]
    by_cases h : type = NodeType.TextNode
    · simp [h, Node.type, Node.data]
    · simp [h, Node.type]
theorem getTextContent_fChildren_eq : ∀ (cs : List Node) (text : GoString),
    getTextContent.fChildren cs text =
      text ++ (((Node.preorderList cs).filter (fun m => m.type = NodeType.TextNode)).map
        Node.data).flatten
  | [], text => by simp [getTextContent.fChildren, Node.preorderList]
  | c :: rest, text => by
    rw [getTextContent.fChildren, getTextContent_f_eq c, getTextContent_fChildren_eq rest]
    simp [Node.preorderList, Node.textData]
end

theorem getTextContent_eq (n : Node) : getTextContent n = strings.TrimSpace n.textData := by
  unfold getTextContent
  rw [getTextContent_f_eq]
  simp

mutual
theorem extractContent_f_no_block : ∀ (n : Node) (content : GoString),
    (∀ m ∈ n.preorder, ¬ (m.type = NodeType.ElementNode ∧ m.data ∈ blockTags)) →
      extractContent.f n content = content
  | .mk type data attr children, content, h => by
    have hc : ∀ m ∈ Node.preorderList children,
        ¬ (m.type = NodeType.ElementNode ∧ m.data ∈ blockTags) := by
      intro m hm
      exact h m (by rw [Node.preorder]; exact List.mem_cons_of_mem _ hm)
    have h0 := h (Node.mk type data attr children)
      (by rw [Node.preorder]; exact List.mem_cons_self _ _)
    simp only [Node.type, Node.data] at h0
    rw [extractContent.f]
    simp only [extractContent_fChildren_no_block children _ hc]
    by_cases ht : type = NodeType.ElementNode
    · have hd : data ∉ blockTags := fun hd => h0 ⟨ht, hd⟩
      simp only [ht, hd, if_true, if_false]
      split_ifs <;> rfl
    · simp only [ht, if_false]
theorem extractContent_fChildren_no_block : ∀ (cs : List Node) (content : GoString),
    (∀ m ∈ Node.preorderList cs, ¬ (m.type = NodeType.ElementNode ∧ m.data ∈ blockTags)) →
      extractContent.fChildren cs content = content
  | [], content, _ => by simp [extractContent.fChildren]
  | c :: rest, content, h => by
    rw [extractContent.fChildren,
      extractContent_f_no_block c content (fun m hm => h m (by
        rw [Node.preorderList]; exact List.mem_append_left _ hm)),
      extractContent_fChildren_no_block rest content (fun m hm => h m (by
        rw [Node.preorderList]; exact List.mem_append_right _ hm))]
end

/-- C3: on a tree that holds no element with tag `p`, `h1`, ..., `h6` (text nodes, `div`
elements and class attributes may occur freely), `extractContent` returns the empty
string. -/
theorem extractContent_no_block (n : Node)
    (h : ∀ m ∈ n.preorder, ¬ (m.type = NodeType.ElementNode ∧ m.data ∈ blockTags)) :
    extractContent n = [] := by
  unfold extractContent
  rw [extractContent_f_no_block n [] h]
  exact strings.TrimSpace_nil

/-- C3, at a tree with a document root, a `div` of class `content`, a `span` and text:
the result is empty. -/
theorem extractContent_no_block_witness :
    extractContent (.mk .DocumentNode [] []
      [.mk .ElementNode (ascii "div") [⟨[], ascii "class", ascii "content"⟩]
        [.mk .ElementNode (ascii "span") [] [.mk .TextNode (ascii "hello") [] []],
         .mk .TextNode (ascii "p") [] []]]) = [] :=
  extractContent_no_block _ (by decide)

theorem p_mem_blockTags : ascii "p" ∈ blockTags := by decide

theorem div_not_mem_blockTags : ascii "div" ∉ blockTags := by decide

/-- The content that the closure `f` appends for one block element (`p`, `h1`, ..., `h6`)
with a single text child. -/
theorem extractContent_f_block_text (tag : GoString) (htag : tag ∈ blockTags)
    (attr tattr : List Attribute) (t content : GoString) :
    extractContent.f (.mk .ElementNode tag attr [.mk .TextNode t tattr []]) content =
      if strings.TrimSpace t ≠ [] then content ++ strings.TrimSpace t ++ ascii "\n\n"
      else content := by
  have ht : getTextContent (.mk .ElementNode tag attr [.mk .TextNode t tattr []]) =
      strings.TrimSpace t := by
    simp [getTextContent, getTextContent.f, getTextContent.fChildren]
  simp only [extractContent.f, extractContent.fChildren, ht, htag, if_true,
    strings.TrimSpace_idem]
  simp

/-- C2: on a tree that is a single `p` element whose only child is a text node with data
`t`, `extractContent` returns `t` with leading and trailing white space trimmed; for
`<p>Hello</p>` it returns `Hello`. -/
theorem extractContent_single_p (attr tattr : List Attribute) (t : GoString) :
    extractContent (.mk .ElementNode (ascii "p") attr [.mk .TextNode t tattr []]) =
        strings.TrimSpace t ∧
      extractContent (.mk .ElementNode (ascii "p") [] [.mk .TextNode (ascii "Hello") [] []]) =
        ascii "Hello" := by
  refine ⟨?_, by decide⟩
  unfold extractContent
  rw [extractContent_f_block_text _ p_mem_blockTags]
  by_cases h : strings.TrimSpace t = []
  · simp [h, strings.TrimSpace_nil]
  · simp only [ne_eq, h, not_false_eq_true, if_true, List.nil_append]
    exact strings.TrimSpace_append_newlines _ (strings.TrimSpace_idem t) h

/-- C1: for a `div` whose class attribute contains `article-body`, `content` or
`post-body` and whose only child is a `p` with the text `X`, `X` having a rune that is
not white space, `extractContent` returns the trimmed text twice, joined by a blank
line: once from the recursion into the children of the container and once from the
unconditional descent. -/
theorem extractContent_container_twice (attr pattr tattr : List Attribute) (X : GoString)
    (n : Node)
    (hn : n = .mk .ElementNode (ascii "div") attr
      [.mk .ElementNode (ascii "p") pattr [.mk .TextNode X tattr []]])
    (hcls : (∃ a b, getAttr n (ascii "class") = a ++ ascii "article-body" ++ b) ∨
      (∃ a b, getAttr n (ascii "class") = a ++ ascii "content" ++ b) ∨
      (∃ a b, getAttr n (ascii "class") = a ++ ascii "post-body" ++ b))
    (hX : ∃ c ∈ utf8.range X, unicode.IsSpace c.1 = false) :
    extractContent n = strings.TrimSpace X ++ ascii "\n\n" ++ strings.TrimSpace X := by
  have hT : strings.TrimSpace X ≠ [] := (strings.TrimSpace_ne_nil_iff X).2 hX
  subst hn
  generalize hc : getAttr (.mk .ElementNode (ascii "div") attr
    [.mk .ElementNode (ascii "p") pattr [.mk .TextNode X tattr []]]) (ascii "class") = cls
    at hcls
  have hne : cls ≠ [] := by
    rintro rfl
    rcases hcls with ⟨a, b, h⟩ | ⟨a, b, h⟩ | ⟨a, b, h⟩ <;>
      · have := congrArg List.length h
        rw [List.length_append, List.length_append] at this
        revert this
        simp [ascii]
        omega
  have hcon : (strings.Contains cls (ascii "article-body") = true ∨
      strings.Contains cls (ascii "content") = true ∨
      strings.Contains cls (ascii "post-body") = true) := by
    simpa only [strings.Contains_iff] using hcls
  unfold extractContent
  rw [extractContent.f]
  simp only [div_not_mem_blockTags, hc, hne, hcon, if_true, if_false, ne_eq,
    not_false_eq_true, extractContent.fChildren,
    extractContent_f_block_text _ p_mem_blockTags, hT, List.nil_append]
  have e : strings.TrimSpace X ++ ascii "\n\n" ++ strings.TrimSpace X ++ ascii "\n\n" =
      (strings.TrimSpace X ++ ascii "\n\n" ++ strings.TrimSpace X) ++ ascii "\n\n" := by
    simp
  rw [e]
  refine strings.TrimSpace_append_newlines _ ?_ (by simp [hT])
  exact strings.TrimSpace_join _ _ (strings.TrimSpace_idem X) hT (strings.TrimSpace_idem X) hT

/-- C1, at `<div class="article-body"><p>X</p></div>`: the result is `X`, a blank line,
`X`. -/
theorem extractContent_container_twice_witness :
    (∃ c ∈ utf8.range (ascii "X"), unicode.IsSpace c.1 = false) ∧
      extractContent (.mk .ElementNode (ascii "div") [⟨[], ascii "class", ascii "article-body"⟩]
        [.mk .ElementNode (ascii "p") [] [.mk .TextNode (ascii "X") [] []]]) =
        ascii "X\n\nX" :=
  ⟨⟨(0x58, [0x58]), by decide, by decide⟩,
    (extractContent_container_twice [⟨[], ascii "class", ascii "article-body"⟩] [] []
      (ascii "X") _ rfl (Or.inl ⟨[], [], by decide⟩)
      ⟨(0x58, [0x58]), by decide, by decide⟩).trans (by decide)⟩

/-- C10: `getTextContent` is the concatenation, in document order, of the data of the text
nodes of the subtree, with white space removed at both ends of the whole and nowhere
else: what is cut off in front and behind is white space only, and everything between
is kept byte for byte. -/
theorem getTextContent_preorder (n : Node) :
    getTextContent n = strings.TrimSpace n.textData ∧
      strings.TrimSpace (getTextContent n) = getTextContent n ∧
      ∃ pre post : GoString, n.textData = pre ++ getTextContent n ++ post ∧
        (∀ c ∈ utf8.range pre, unicode.IsSpace c.1 = true) ∧
        (∀ c ∈ utf8.range post, unicode.IsSpace c.1 = true) := by
  rw [getTextContent_eq]
  exact ⟨rfl, strings.TrimSpace_idem _, strings.TrimSpace_decomp _⟩

/-- C12: the result of `extractContent` has no white space at either end: trimming it
again changes nothing, its first and its last rune are not white space, and the separator
`"\n\n"` that follows each block in the buffer is never its ending. -/
theorem extractContent_trimmed (n : Node) :
    strings.TrimSpace (extractContent n) = extractContent n ∧
      (∀ c, (utf8.range (extractContent n)).head? = some c → unicode.IsSpace c.1 = false) ∧
      (∀ c, (utf8.range (extractContent n)).getLast? = some c →
        unicode.IsSpace c.1 = false) ∧
      ∀ pre : GoString, extractContent n ≠ pre ++ ascii "\n\n" := by
  have hfix : strings.TrimSpace (extractContent n) = extractContent n := by
    unfold extractContent
    exact strings.TrimSpace_idem _
  obtain ⟨h1, h2⟩ := strings.range_fixed_of_TrimFunc (extractContent n) unicode.IsSpace
    (by rw [← strings.TrimSpace_eq_TrimFunc]; exact hfix)
  rw [List.dropWhile_eq_self_iff] at h1
  rw [List.rdropWhile_eq_self_iff] at h2
  refine ⟨hfix, ?_, ?_, ?_⟩
  · intro c hc
    rcases hr : utf8.range (extractContent n) with _ | ⟨c0, rest⟩
    · rw [hr] at hc; simp at hc
    · rw [hr] at hc h1
      simp only [List.head?_cons, Option.some.injEq] at hc
      subst hc
      simpa using h1 (by simp)
  · intro c hc
    have hne : utf8.range (extractContent n) ≠ [] := by
      intro h; rw [h] at hc; simp at hc
    rw [List.getLast?_eq_getLast _ hne, Option.some.injEq] at hc
    rw [← hc]
    simpa using h2 hne
  · intro pre hpre
    have hr : utf8.range (extractContent n) =
        utf8.range pre ++ [(0x0A, [0x0A]), (0x0A, [0x0A])] := by
      rw [hpre, strings.ascii_newlines, strings.range_append_newlines, utf8.range_nil]
    have hne : utf8.range (extractContent n) ≠ [] := by rw [hr]; simp
    have := h2 hne
    simp only [hr] at this
    rw [List.getLast_append_of_ne_nil (by simp)] at this
    simp at this
    exact absurd this (by decide)

theorem blocksOf_nil : blocksOf [] = [] := rfl

theorem blocksOf_append (l₁ l₂ : List Node) :
    blocksOf (l₁ ++ l₂) = blocksOf l₁ ++ blocksOf l₂ := by
  simp [blocksOf]

theorem blocksOf_cons (e : Node) (l : List Node) :
    blocksOf (e :: l) =
      (if e.type = NodeType.ElementNode ∧ e.data ∈ blockTags ∧
          strings.TrimSpace e.textData ≠ [] then getTextContent e ++ ascii "\n\n" else []) ++
        blocksOf l := by
  unfold blocksOf
  by_cases h : e.type = NodeType.ElementNode ∧ e.data ∈ blockTags ∧
      strings.TrimSpace e.textData ≠ []
  · rw [List.filter_cons_of_pos (by simpa using h), if_pos h]
    simp
  · rw [List.filter_cons_of_neg (by simpa using h), if_neg h]
    simp

mutual
theorem extractContent_f_blocks : ∀ (n : Node) (content : GoString),
    (∀ m ∈ n.preorder, isContainer m = false) →
      extractContent.f n content = content ++ blocksOf n.preorder
  | .mk type data attr children, content, h => by
    have hc : ∀ m ∈ Node.preorderList children, isContainer m = false := by
      intro m hm
      exact h m (by rw [Node.preorder]; exact List.mem_cons_of_mem _ hm)
    have h0 := h (Node.mk type data attr children)
      (by rw [Node.preorder]; exact List.mem_cons_self _ _)
    rw [extractContent.f, Node.preorder, blocksOf_cons]
    simp only [Node.type, Node.data]
    by_cases ht : type = NodeType.ElementNode
    · by_cases hd : data ∈ blockTags
      · simp only [ht, hd, if_true, true_and, getTextContent_eq, strings.TrimSpace_idem]
        split_ifs
        · rw [extractContent_fChildren_blocks children _ hc]
          simp
        · rw [extractContent_fChildren_blocks children _ hc]
          simp
      · simp only [ht, hd, if_true, if_false, true_and, false_and, List.nil_append]
        by_cases hdiv : data = ascii "div"
        · subst ht hdiv
          have hnot : ¬ (strings.Contains (getAttr (Node.mk NodeType.ElementNode (ascii "div")
              attr children) (ascii "class")) (ascii "article-body") = true ∨
              strings.Contains (getAttr (Node.mk NodeType.ElementNode (ascii "div")
              attr children) (ascii "class")) (ascii "content") = true ∨
              strings.Contains (getAttr (Node.mk NodeType.ElementNode (ascii "div")
              attr children) (ascii "class")) (ascii "post-body") = true) := by
            intro hcon
            have : isContainer (Node.mk NodeType.ElementNode (ascii "div") attr children) =
                true := by
              simp only [isContainer, Node.type, Node.data, true_and, decide_eq_true_eq]
              exact hcon
            rw [h0] at this
            exact Bool.false_ne_true this
          simp only [if_true, hnot, if_false, ite_self]
          exact extractContent_fChildren_blocks children _ hc
        · simp only [hdiv, if_false]
          exact extractContent_fChildren_blocks children _ hc
    · simp only [ht, if_false, false_and, List.nil_append]
      exact extractContent_fChildren_blocks children _ hc
theorem extractContent_fChildren_blocks : ∀ (cs : List Node) (content : GoString),
    (∀ m ∈ Node.preorderList cs, isContainer m = false) →
      extractContent.fChildren cs content = content ++ blocksOf (Node.preorderList cs)
  | [], content, _ => by simp [extractContent.fChildren, Node.preorderList, blocksOf_nil]
  | c :: rest, content, h => by
    rw [extractContent.fChildren,
      extractContent_f_blocks c content (fun m hm => h m (by
        rw [Node.preorderList]; exact List.mem_append_left _ hm)),
      extractContent_fChildren_blocks rest _ (fun m hm => h m (by
        rw [Node.preorderList]; exact List.mem_append_right _ hm)),
      Node.preorderList, blocksOf_append, List.append_assoc]
end

/-- C16: on a tree without content-bearing container, `extractContent` returns the
trimmed concatenation, in document order, of `getTextContent(e) ++ "\n\n"` for the
elements `e` with tag `p` or `h1`, ..., `h6` whose text is not empty after trimming.
Each such element contributes once at its own position (its text is also part of the
text content of every `p`/`h` ancestor); elements with blank text contribute nothing. -/
theorem extractContent_without_container (n : Node)
    (h : ∀ m ∈ n.preorder, isContainer m = false) :
    extractContent n = strings.TrimSpace (blocksOf n.preorder) := by
  unfold extractContent
  rw [extractContent_f_blocks n [] h, List.nil_append]

/-- C16, at `<div><h1>T</h1><p> </p><p>a<b>c</b></p></div>`: the blocks are `T` and
`ac`. -/
theorem extractContent_without_container_witness :
    (∀ m ∈ (Node.mk .ElementNode (ascii "div") []
        [.mk .ElementNode (ascii "h1") [] [.mk .TextNode (ascii "T") [] []],
         .mk .ElementNode (ascii "p") [] [.mk .TextNode (ascii " ") [] []],
         .mk .ElementNode (ascii "p") [] [.mk .TextNode (ascii "a") [] [],
           .mk .ElementNode (ascii "b") [] [.mk .TextNode (ascii "c") [] []]]]).preorder,
        isContainer m = false) ∧
      extractContent (Node.mk .ElementNode (ascii "div") []
        [.mk .ElementNode (ascii "h1") [] [.mk .TextNode (ascii "T") [] []],
         .mk .ElementNode (ascii "p") [] [.mk .TextNode (ascii " ") [] []],
         .mk .ElementNode (ascii "p") [] [.mk .TextNode (ascii "a") [] [],
           .mk .ElementNode (ascii "b") [] [.mk .TextNode (ascii "c") [] []]]]) =
        ascii "T\n\nac" :=
  ⟨by decide, (extractContent_without_container _ (by decide)).trans (by decide)⟩

theorem getAttr_children (type : NodeType) (data : GoString) (attr : List Attribute)
    (c₁ c₂ : List Node) (name : GoString) :
    getAttr (.mk type data attr c₁) name = getAttr (.mk type data attr c₂) name := rfl

theorem isContainer_div (attr : List Attribute) (c : List Node) :
    isContainer (.mk .ElementNode (ascii "div") attr c) = true ↔
      (strings.Contains (getAttr (.mk .ElementNode (ascii "div") attr c) (ascii "class"))
          (ascii "article-body") = true ∨
        strings.Contains (getAttr (.mk .ElementNode (ascii "div") attr c) (ascii "class"))
          (ascii "content") = true ∨
        strings.Contains (getAttr (.mk .ElementNode (ascii "div") attr c) (ascii "class"))
          (ascii "post-body") = true) := by
  simp [isContainer, Node.type, Node.data]

/-- The closure `f` on a content-bearing container with one child visits the child
twice. -/
theorem extractContent_f_container (attr : List Attribute) (child : Node)
    (content : GoString)
    (h : isContainer (.mk .ElementNode (ascii "div") attr []) = true) :
    extractContent.f (.mk .ElementNode (ascii "div") attr [child]) content =
      extractContent.f child (extractContent.f child content) := by
  rw [isContainer_div] at h
  rw [getAttr_children _ _ _ [] [child]] at h
  have hne : getAttr (.mk .ElementNode (ascii "div") attr [child]) (ascii "class") ≠ [] := by
    intro h0
    rw [h0] at h
    revert h
    decide
  rw [extractContent.f]
  simp only [div_not_mem_blockTags, hne, h, if_true, if_false, ne_eq, not_false_eq_true,
    extractContent.fChildren]

theorem extractContent_f_divChain (pattr tattr : List Attribute) (X : GoString)
    (hT : strings.TrimSpace X ≠ []) :
    ∀ (attrs : List (List Attribute)) (content : GoString),
      (∀ a ∈ attrs, isContainer (.mk .ElementNode (ascii "div") a []) = true) →
      extractContent.f
          (divChain attrs (.mk .ElementNode (ascii "p") pattr [.mk .TextNode X tattr []]))
          content =
        content ++
          (List.replicate (2 ^ attrs.length) (strings.TrimSpace X ++ ascii "\n\n")).flatten := by
  intro attrs
  induction attrs with
  | nil =>
    intro content _
    rw [divChain, extractContent_f_block_text _ p_mem_blockTags, if_pos hT]
    simp
  | cons a rest ih =>
    intro content h
    have hrest : ∀ a ∈ rest, isContainer (.mk .ElementNode (ascii "div") a []) = true :=
      fun b hb => h b (List.mem_cons_of_mem _ hb)
    rw [divChain, extractContent_f_container a _ _ (h a (List.mem_cons_self _ _)),
      ih _ hrest, ih _ hrest, List.length_cons, pow_succ, Nat.mul_two, List.replicate_add,
      List.flatten_append, List.append_assoc]

/-- Copies of a trimmed, non-empty string, each followed by the separator, trim to the
copies joined by the separator. -/
theorem TrimSpace_blocks (T : GoString) (hT : strings.TrimSpace T = T) (hne : T ≠ []) :
    ∀ m : Nat,
      strings.TrimSpace ((ascii "\n\n").intercalate (List.replicate (m + 1) T)) =
          (ascii "\n\n").intercalate (List.replicate (m + 1) T) ∧
        (ascii "\n\n").intercalate (List.replicate (m + 1) T) ≠ [] ∧
        (List.replicate (m + 1) (T ++ ascii "\n\n")).flatten =
          (ascii "\n\n").intercalate (List.replicate (m + 1) T) ++ ascii "\n\n" := by
  intro m
  induction m with
  | zero => simp [List.intercalate, hT, hne]
  | succ m ih =>
    obtain ⟨h1, h2, h3⟩ := ih
    have e : (ascii "\n\n").intercalate (List.replicate (m + 1 + 1) T) =
        T ++ ascii "\n\n" ++ (ascii "\n\n").intercalate (List.replicate (m + 1) T) := by
      simp [List.intercalate, List.replicate_succ]
    rw [e]
    refine ⟨strings.TrimSpace_join _ _ hT hne h1 h2, by simp [hne], ?_⟩
    rw [List.replicate_succ, List.flatten_cons, h3]
    simp

/-- C17: on a chain of `k` nested content-bearing `div` containers around a `p` with the
text `X`, `X` having a rune that is not white space, `extractContent` returns `2 ^ k`
copies of the trimmed text joined by `"\n\n"`. -/
theorem extractContent_divChain (attrs : List (List Attribute)) (pattr tattr : List Attribute)
    (X : GoString)
    (hcls : ∀ a ∈ attrs, isContainer (.mk .ElementNode (ascii "div") a []) = true)
    (hX : ∃ c ∈ utf8.range X, unicode.IsSpace c.1 = false) :
    extractContent
        (divChain attrs (.mk .ElementNode (ascii "p") pattr [.mk .TextNode X tattr []])) =
      (ascii "\n\n").intercalate
        (List.replicate (2 ^ attrs.length) (strings.TrimSpace X)) := by
  have hT : strings.TrimSpace X ≠ [] := (strings.TrimSpace_ne_nil_iff X).2 hX
  obtain ⟨m, hm⟩ : ∃ m, 2 ^ attrs.length = m + 1 :=
    ⟨2 ^ attrs.length - 1, by have := Nat.two_pow_pos attrs.length; omega⟩
  obtain ⟨h1, h2, h3⟩ := TrimSpace_blocks _ (strings.TrimSpace_idem X) hT m
  unfold extractContent
  rw [extractContent_f_divChain pattr tattr X hT attrs [] hcls, List.nil_append, hm, h3]
  exact strings.TrimSpace_append_newlines _ h1 h2

/-- C17, at two nested containers around `<p>X</p>`: four copies of `X`. -/
theorem extractContent_divChain_witness :
    (∃ c ∈ utf8.range (ascii "X"), unicode.IsSpace c.1 = false) ∧
      extractContent (.mk .ElementNode (ascii "div") [⟨[], ascii "class", ascii "content"⟩]
        [.mk .ElementNode (ascii "div") [⟨[], ascii "class", ascii "my-post-body"⟩]
          [.mk .ElementNode (ascii "p") [] [.mk .TextNode (ascii "X") [] []]]]) =
        ascii "X\n\nX\n\nX\n\nX" :=
  ⟨⟨(0x58, [0x58]), by decide, by decide⟩,
    (extractContent_divChain
      [[⟨[], ascii "class", ascii "content"⟩], [⟨[], ascii "class", ascii "my-post-body"⟩]]
      [] [] (ascii "X") (by decide) ⟨(0x58, [0x58]), by decide, by decide⟩).trans (by decide)⟩

/-! ## Splitting and the title -/

namespace strings

theorem Index_single_none (c : Nat) : ∀ s : GoString, Index s [c] = none → c ∉ s := by
  intro s
  induction s with
  | nil => simp
  | cons x t ih =>
    intro h
    by_cases hx : c = x
    · subst hx
      simp [Index] at h
    · have hp : ¬ ([c].isPrefixOf (x :: t) = true) := by
        simp [hx]
      rw [Index, if_neg hp, Option.map_eq_none'] at h
      simp only [List.mem_cons, not_or]
      exact ⟨hx, ih h⟩

theorem Index_single_some (c : Nat) : ∀ (s : GoString) (m : Nat), Index s [c] = some m →
    s = s.take m ++ c :: s.drop (m + 1) := by
  intro s
  induction s with
  | nil => intro m h; simp [Index] at h
  | cons x t ih =>
    intro m h
    by_cases hx : c = x
    · subst hx
      simp [Index] at h
      subst h
      simp
    · have hp : ¬ ([c].isPrefixOf (x :: t) = true) := by
        simp [hx]
      rw [Index, if_neg hp, Option.map_eq_some'] at h
      obtain ⟨m', hm', rfl⟩ := h
      have := ih m' hm'
      simp only [List.take_succ_cons, List.drop_succ_cons, List.cons_append, List.cons.injEq,
        true_and]
      exact this

/-- The last piece of a split at a one-byte separator: it holds no separator, and the
string is either that piece alone or ends with the separator followed by the piece. -/
theorem splitAux_last (c : Nat) : ∀ (fuel : Nat) (s : GoString), s.length ≤ fuel →
    ∃ t, (splitAux [c] fuel s).getLast? = some t ∧ c ∉ t ∧
      ((c ∉ s ∧ t = s) ∨ ∃ p, s = p ++ c :: t) := by
  intro fuel
  induction fuel with
  | zero =>
    intro s hs
    have : s = [] := List.length_eq_zero.mp (Nat.le_zero.mp hs)
    subst this
    exact ⟨[], by simp [splitAux], by simp, Or.inl ⟨by simp, rfl⟩⟩
  | succ n ih =>
    intro s hs
    cases hI : Index s [c] with
    | none =>
      have hc := Index_single_none c s hI
      exact ⟨s, by simp [splitAux, hI], hc, Or.inl ⟨hc, rfl⟩⟩
    | some m =>
      have hsplit := Index_single_some c s m hI
      obtain ⟨t, ht, hct, hcase⟩ := ih (s.drop (m + 1)) (by simp; omega)
      refine ⟨t, ?_, hct, Or.inr ?_⟩
      · simp only [splitAux, hI, List.length_singleton]
        rcases hl : splitAux [c] n (List.drop (m + 1) s) with _ | ⟨y, ys⟩
        · rw [hl] at ht
          simp at ht
        · rw [List.getLast?_cons_cons, ← hl]
          exact ht
      · rcases hcase with ⟨-, h2⟩ | ⟨p, hp⟩
        · exact ⟨s.take m, by rw [h2]; exact hsplit⟩
        · exact ⟨s.take m ++ c :: p, by
            conv_lhs => rw [hsplit, hp]
            simp⟩

end strings

theorem ascii_slash : ascii "/" = [0x2F] := by decide

theorem extractTitle_eq_getLast (url : GoString) :
    extractTitle url = (strings.Split url (ascii "/")).getLast? := by
  unfold extractTitle
  rcases h : strings.Split url (ascii "/") with _ | ⟨x, xs⟩
  · simp
  · have hi : (0 : Int) ≤ ((x :: xs).length : Int) - 1 := by
      simp only [List.length_cons]
      omega
    simp only [hi, if_true]
    rw [List.getLast?_eq_getElem?, List.get?_eq_getElem?]
    congr 1
    simp

theorem extractTitle_last (url : GoString) :
    ∃ t, extractTitle url = some t ∧ 0x2F ∉ t ∧
      ((0x2F ∉ url ∧ t = url) ∨ ∃ p, url = p ++ 0x2F :: t) := by
  rw [extractTitle_eq_getLast, ascii_slash]
  exact strings.splitAux_last 0x2F url.length url (le_refl _)

theorem suffix_after_last_unique (x : Nat) : ∀ (p p' c t : GoString),
    p ++ x :: c = p' ++ x :: t → x ∉ c → x ∉ t → c = t := by
  intro p
  induction p with
  | nil =>
    intro p' c t h hc ht
    rcases p' with _ | ⟨y, p'⟩
    · simpa using h
    · simp only [List.nil_append, List.cons_append, List.cons.injEq] at h
      exact absurd (by rw [h.2]; simp) hc
  | cons y p ih =>
    intro p' c t h hc ht
    rcases p' with _ | ⟨z, p'⟩
    · simp only [List.nil_append, List.cons_append, List.cons.injEq] at h
      exact absurd (by rw [← h.2]; simp) ht
    · simp only [List.cons_append, List.cons.injEq] at h
      exact ih p' c t h.2 hc ht

/-- C8: `extractTitle(url)` is the part of `url` after its last `/` (byte `0x2F`), the
whole string when there is none: the result holds no `/`, and a `url` with a `/` is some
prefix, `/`, and the result.  So for `url = p ++ "/" ++ c` with no `/` in `c` the result
is `c`, whatever else `c` holds (an extension, a query string). -/
theorem extractTitle_after_last_slash (url : GoString) :
    ∃ t, extractTitle url = some t ∧ 0x2F ∉ t ∧ (0x2F ∉ url → t = url) ∧
      (0x2F ∈ url → ∃ p, url = p ++ ascii "/" ++ t) ∧
      (∀ p c, url = p ++ ascii "/" ++ c → 0x2F ∉ c → t = c) ∧
      extractTitle (ascii "https://www.wired.com/a/b/c.html?x=1") =
        some (ascii "c.html?x=1") := by
  obtain ⟨t, h1, h2, h3⟩ := extractTitle_last url
  refine ⟨t, h1, h2, ?_, ?_, ?_, by decide⟩
  · intro hno
    rcases h3 with ⟨-, h⟩ | ⟨p, hp⟩
    · exact h
    · exact absurd (by rw [hp]; simp) hno
  · intro hin
    rcases h3 with ⟨h, -⟩ | ⟨p, hp⟩
    · exact absurd hin h
    · exact ⟨p, by rw [ascii_slash, hp]; simp⟩
  · intro p c hpc hc
    rw [ascii_slash] at hpc
    rcases h3 with ⟨h, -⟩ | ⟨p', hp'⟩
    · exact absurd (by rw [hpc]; simp) h
    · have : p ++ 0x2F :: c = p' ++ 0x2F :: t := by
        rw [← hp', hpc]; simp
      exact (suffix_after_last_unique _ _ _ _ _ this hc h2).symm

/-- C9, refuted as stated: the URL `https://www.wired.com/story/foo/` has non-empty
segments, the last of them is `foo`, and `extractTitle` returns the empty string. -/
theorem extractTitle_trailing_slash_empty :
    (∃ seg ∈ strings.Split (ascii "https://www.wired.com/story/foo/") (ascii "/"), seg ≠ []) ∧
      lastNonEmptySegment (ascii "https://www.wired.com/story/foo/") = some (ascii "foo") ∧
      extractTitle (ascii "https://www.wired.com/story/foo/") = some [] ∧
      extractTitle (ascii "https://www.wired.com/story/foo/") ≠
        lastNonEmptySegment (ascii "https://www.wired.com/story/foo/") := by
  decide

theorem extractTitle_append_slash (url : GoString) :
    extractTitle (url ++ ascii "/") = some [] := by
  obtain ⟨t, h1, h2, h3⟩ := extractTitle_last (url ++ ascii "/")
  rw [h1]
  rcases h3 with ⟨h, -⟩ | ⟨p, hp⟩
  · exact absurd (by rw [ascii_slash]; simp) h
  · rw [ascii_slash] at hp
    have : url ++ 0x2F :: [] = p ++ 0x2F :: t := by
      rw [← hp]
    rw [← suffix_after_last_unique _ _ _ _ _ this (by simp) h2]

/-- C9, as amended: for a URL that is not empty and does not end in `/`, `extractTitle`
returns the last non-empty segment of the URL split on `/`, verbatim, and the title is
not empty; for every URL that ends in `/`, `/` itself and URLs ending in `//` included,
the title is the empty string. -/
theorem extractTitle_last_segment (url : GoString) :
    (url ≠ [] → url.getLast? ≠ some 0x2F →
        extractTitle url = lastNonEmptySegment url ∧
          ∃ t, extractTitle url = some t ∧ t ≠ []) ∧
      (url.getLast? = some 0x2F → extractTitle url = some []) ∧
      extractTitle (url ++ ascii "/") = some [] := by
  refine ⟨?_, ?_, extractTitle_append_slash url⟩
  · intro hne hlast
    obtain ⟨t, h1, h2, h3⟩ := extractTitle_last url
    have ht : t ≠ [] := by
      rintro rfl
      rcases h3 with ⟨-, h⟩ | ⟨p, hp⟩
      · exact hne h.symm
      · apply hlast
        rw [hp]
        simp
    refine ⟨?_, ⟨t, h1, ht⟩⟩
    rw [h1]
    rw [extractTitle_eq_getLast] at h1
    unfold lastNonEmptySegment
    obtain ⟨init, hinit⟩ : ∃ init, strings.Split url (ascii "/") = init ++ [t] := by
      have hnil : strings.Split url (ascii "/") ≠ [] := by
        intro h
        rw [h] at h1
        simp at h1
      refine ⟨(strings.Split url (ascii "/")).dropLast, ?_⟩
      have h2 := List.dropLast_append_getLast hnil
      rw [List.getLast?_eq_getLast _ hnil] at h1
      rw [← Option.some.inj h1]
      exact h2.symm
    rw [hinit, List.filter_append]
    simp [ht]
  · intro hlast
    have hne : url ≠ [] := by
      rintro rfl
      simp at hlast
    have hsplit : url = url.dropLast ++ ascii "/" := by
      rw [List.getLast?_eq_getLast _ hne, Option.some.injEq] at hlast
      rw [ascii_slash, ← hlast, List.dropLast_append_getLast]
    rw [hsplit]
    exact extractTitle_append_slash _

/-- C9, as amended, at `https://www.wired.com/story/foo` (title `foo`) and at `/` and
`https://www.wired.com//` (empty title). -/
theorem extractTitle_last_segment_witness :
    ascii "https://www.wired.com/story/foo" ≠ [] ∧
      (ascii "https://www.wired.com/story/foo").getLast? ≠ some 0x2F ∧
      extractTitle (ascii "https://www.wired.com/story/foo") = some (ascii "foo") ∧
      extractTitle (ascii "/") = some [] ∧
      extractTitle (ascii "https://www.wired.com//") = some [] :=
  ⟨by decide, by decide,
    ((extractTitle_last_segment (ascii "https://www.wired.com/story/foo")).1 (by decide)
      (by decide)).1.trans (by decide),
    (extractTitle_last_segment (ascii "/")).2.1 (by decide),
    (extractTitle_last_segment (ascii "https://www.wired.com//")).2.1 (by decide)⟩

/-- C18: `extractTitle` is total: splitting on `/` gives at least one element for every
string, the empty one and those without `/` included, so the index `len - 1` is in range
and `extractTitle` returns a string. -/
theorem extractTitle_total (url : GoString) :
    1 ≤ (strings.Split url (ascii "/")).length ∧ (∃ t, extractTitle url = some t) ∧
      extractTitle [] = some [] ∧ (0x2F ∉ url → extractTitle url = some url) := by
  obtain ⟨t, h1, -, h3⟩ := extractTitle_last url
  refine ⟨?_, ⟨t, h1⟩, by decide, ?_⟩
  · rw [extractTitle_eq_getLast] at h1
    rcases hs : strings.Split url (ascii "/") with _ | ⟨x, xs⟩
    · rw [hs] at h1; simp at h1
    · simp
  · intro hno
    rcases h3 with ⟨-, h⟩ | ⟨p, hp⟩
    · rw [h1, h]
    · exact absurd (by rw [hp]; simp) hno

/-! ## The file name -/

namespace regexp

open utf8

theorem forbiddenClass_lt (r : Nat) (h : forbiddenClass r = true) : r < 0x80 := by
  simp [forbiddenClass] at h
  omega

theorem spaceClass_lt (r : Nat) (h : spaceClass r = true) : r < 0x80 := by
  simp [spaceClass] at h
  omega

/-- The bytes of a rune outside an ASCII class are bytes of the string outside the class. -/
theorem bytes_of_rune_outside (cls : Nat → Bool) (hcls : ∀ r, cls r = true → r < 0x80)
    (s : GoString) (c : Nat × GoString) (hc : c ∈ range s) (hout : cls c.1 = false) :
    ∀ b ∈ c.2, b ∈ s ∧ cls b = false := by
  intro b hb
  constructor
  · rw [← range_flatten s]
    exact List.mem_flatten.mpr ⟨c.2, List.mem_map.mpr ⟨c, hc, rfl⟩, hb⟩
  · rcases range_bytes s c hc with ⟨-, h2⟩ | ⟨-, -, h3⟩
    · rw [h2] at hb
      rw [List.mem_singleton.mp hb]
      exact hout
    · have := h3 b hb
      by_contra hb'
      have := hcls b (by simpa using hb')
      omega

/-- In a string without bytes of an ASCII class no rune is in the class. -/
theorem runes_outside (cls : Nat → Bool) (hcls : ∀ r, cls r = true → r < 0x80)
    (s : GoString) (hs : ∀ b ∈ s, cls b = false) : ∀ c ∈ range s, cls c.1 = false := by
  intro c hc
  by_contra hin
  have hin' : cls c.1 = true := by simpa using hin
  have hlt := hcls _ hin'
  rcases range_bytes s c hc with ⟨-, h2⟩ | ⟨h1, -, -⟩
  · have hmem : c.1 ∈ s := by
      rw [← range_flatten s]
      exact List.mem_flatten.mpr ⟨c.2, List.mem_map.mpr ⟨c, hc, rfl⟩, by rw [h2]; simp⟩
    rw [hs _ hmem] at hin'
    exact Bool.false_ne_true hin'
  · omega

theorem mem_replaceAllClass (cls : Nat → Bool) (hcls : ∀ r, cls r = true → r < 0x80)
    (repl s : GoString) (b : Nat) (hb : b ∈ replaceAllClass cls repl s) :
    b ∈ repl ∨ (b ∈ s ∧ cls b = false) := by
  unfold replaceAllClass at hb
  obtain ⟨l, hl, hbl⟩ := List.mem_flatten.mp hb
  obtain ⟨c, hc, rfl⟩ := List.mem_map.mp hl
  by_cases h : cls c.1 = true
  · left; simpa [h] using hbl
  · right
    have h' : cls c.1 = false := by simpa using h
    rw [if_neg h] at hbl
    exact bytes_of_rune_outside cls hcls s c hc h' b hbl

theorem replaceAllClass_fixed (cls : Nat → Bool) (hcls : ∀ r, cls r = true → r < 0x80)
    (repl s : GoString) (hs : ∀ b ∈ s, cls b = false) : replaceAllClass cls repl s = s := by
  unfold replaceAllClass
  have h := runes_outside cls hcls s hs
  have : (range s).map (fun c => if cls c.1 = true then repl else c.2) =
      (range s).map Prod.snd := by
    apply List.map_congr_left
    intro c hc
    simp [h c hc]
  rw [this, range_flatten]

theorem mem_replaceRunsAux (cls : Nat → Bool) (repl : GoString) (b : Nat) :
    ∀ (cs : List (Nat × GoString)) (inRun : Bool), b ∈ replaceRunsAux cls repl cs inRun →
      b ∈ repl ∨ ∃ c ∈ cs, cls c.1 = false ∧ b ∈ c.2 := by
  intro cs
  induction cs with
  | nil => intro inRun h; simp [replaceRunsAux] at h
  | cons c cs ih =>
    intro inRun h
    obtain ⟨r, bs⟩ := c
    by_cases hr : cls r = true
    · rw [replaceRunsAux, if_pos hr, List.mem_append] at h
      rcases h with h | h
      · left
        cases inRun <;> simp_all
      · rcases ih true h with h | ⟨c, hc, h1, h2⟩
        · exact Or.inl h
        · exact Or.inr ⟨c, List.mem_cons_of_mem _ hc, h1, h2⟩
    · rw [replaceRunsAux, if_neg hr, List.mem_append] at h
      rcases h with h | h
      · exact Or.inr ⟨(r, bs), List.mem_cons_self _ _, by simpa using hr, h⟩
      · rcases ih false h with h | ⟨c, hc, h1, h2⟩
        · exact Or.inl h
        · exact Or.inr ⟨c, List.mem_cons_of_mem _ hc, h1, h2⟩

theorem replaceRunsAux_fixed (cls : Nat → Bool) (repl : GoString) :
    ∀ (cs : List (Nat × GoString)) (inRun : Bool), (∀ c ∈ cs, cls c.1 = false) →
      replaceRunsAux cls repl cs inRun = (cs.map Prod.snd).flatten := by
  intro cs
  induction cs with
  | nil => intro inRun _; simp [replaceRunsAux]
  | cons c cs ih =>
    intro inRun h
    obtain ⟨r, bs⟩ := c
    have hr : cls r = false := h (r, bs) (List.mem_cons_self _ _)
    simp [replaceRunsAux, hr, ih false (fun c hc => h c (List.mem_cons_of_mem _ hc))]

theorem mem_replaceAllClassPlus (cls : Nat → Bool) (hcls : ∀ r, cls r = true → r < 0x80)
    (repl s : GoString) (b : Nat) (hb : b ∈ replaceAllClassPlus cls repl s) :
    b ∈ repl ∨ (b ∈ s ∧ cls b = false) := by
  rcases mem_replaceRunsAux cls repl b _ _ hb with h | ⟨c, hc, h1, h2⟩
  · exact Or.inl h
  · exact Or.inr (bytes_of_rune_outside cls hcls s c hc h1 b h2)

theorem replaceAllClassPlus_fixed (cls : Nat → Bool) (hcls : ∀ r, cls r = true → r < 0x80)
    (repl s : GoString) (hs : ∀ b ∈ s, cls b = false) :
    replaceAllClassPlus cls repl s = s := by
  unfold replaceAllClassPlus
  rw [replaceRunsAux_fixed cls repl _ _ (runes_outside cls hcls s hs), range_flatten]

end regexp

theorem ascii_underscore : ascii "_" = [0x5F] := by decide

theorem sanitizeFilename_def (y : GoString) :
    sanitizeFilename y = strings.TrimSpace
      (if (regexp.replaceAllClassPlus regexp.spaceClass (ascii "_")
          (regexp.replaceAllClass regexp.forbiddenClass [] y)).length > 100 then
        (regexp.replaceAllClassPlus regexp.spaceClass (ascii "_")
          (regexp.replaceAllClass regexp.forbiddenClass [] y)).take 100
      else regexp.replaceAllClassPlus regexp.spaceClass (ascii "_")
        (regexp.replaceAllClass regexp.forbiddenClass [] y)) := rfl

/-- Every byte of the result of `sanitizeFilename` is outside the two classes of the
regular expressions. -/
theorem mem_sanitizeFilename (x : GoString) (b : Nat) (hb : b ∈ sanitizeFilename x) :
    regexp.forbiddenClass b = false ∧ regexp.spaceClass b = false := by
  unfold sanitizeFilename at hb
  have h1 := strings.mem_of_mem_TrimSpace _ _ hb
  have h2 : b ∈ regexp.replaceAllClassPlus regexp.spaceClass (ascii "_")
      (regexp.replaceAllClass regexp.forbiddenClass [] x) := by
    split_ifs at h1
    · exact List.mem_of_mem_take h1
    · exact h1
  rcases regexp.mem_replaceAllClassPlus _ regexp.spaceClass_lt _ _ _ h2 with h | ⟨h3, h4⟩
  · rw [ascii_underscore, List.mem_singleton] at h
    subst h
    exact ⟨by decide, by decide⟩
  · refine ⟨?_, h4⟩
    rcases regexp.mem_replaceAllClass _ regexp.forbiddenClass_lt _ _ _ h3 with h | ⟨-, h5⟩
    · simp at h
    · exact h5

theorem sanitizeFilename_length (x : GoString) : (sanitizeFilename x).length ≤ 100 := by
  unfold sanitizeFilename
  refine le_trans (strings.TrimSpace_length_le _) ?_
  split_ifs with h
  · simp
  · omega

/-- C4: `sanitizeFilename` is idempotent, for every byte string: inputs longer than 100
bytes, inputs cut inside a multi-byte character and inputs with white space outside
ASCII included. -/
theorem sanitizeFilename_idempotent (x : GoString) :
    sanitizeFilename (sanitizeFilename x) = sanitizeFilename x := by
  have hmem := mem_sanitizeFilename x
  have hlen := sanitizeFilename_length x
  have h1 : regexp.replaceAllClass regexp.forbiddenClass [] (sanitizeFilename x) =
      sanitizeFilename x :=
    regexp.replaceAllClass_fixed _ regexp.forbiddenClass_lt _ _ (fun b hb => (hmem b hb).1)
  have h2 : regexp.replaceAllClassPlus regexp.spaceClass (ascii "_") (sanitizeFilename x) =
      sanitizeFilename x :=
    regexp.replaceAllClassPlus_fixed _ regexp.spaceClass_lt _ _ (fun b hb => (hmem b hb).2)
  have h3 : strings.TrimSpace (sanitizeFilename x) = sanitizeFilename x := by
    rw [sanitizeFilename_def x]
    exact strings.TrimSpace_idem _
  rw [sanitizeFilename_def (sanitizeFilename x), h1, h2, if_neg (by omega), h3]

/-- C5: the result of `sanitizeFilename` holds none of the characters
`< > : " / \ | ? *`, neither as a byte nor as a decoded rune. -/
theorem sanitizeFilename_no_forbidden (x : GoString) :
    ∀ ch ∈ ascii "<>:\"/\\|?*", ch ∉ sanitizeFilename x ∧
      ∀ c ∈ utf8.range (sanitizeFilename x), c.1 ≠ ch := by
  have hcls : ∀ ch ∈ ascii "<>:\"/\\|?*", regexp.forbiddenClass ch = true := by decide
  intro ch hch
  have hf := hcls ch hch
  constructor
  · intro hmem
    have := (mem_sanitizeFilename x ch hmem).1
    rw [hf] at this
    exact Bool.noConfusion this
  · intro c hc heq
    have := regexp.runes_outside _ regexp.forbiddenClass_lt _
      (fun b hb => (mem_sanitizeFilename x b hb).1) c hc
    rw [heq, hf] at this
    exact Bool.noConfusion this

/-- C6: the result of `sanitizeFilename` is at most 100 bytes long, and so at most 100
characters (runes). -/
theorem sanitizeFilename_at_most_100 (x : GoString) :
    (sanitizeFilename x).length ≤ 100 ∧ utf8.RuneCountInString (sanitizeFilename x) ≤ 100 :=
  ⟨sanitizeFilename_length x,
    le_trans (utf8.range_length_le _) (sanitizeFilename_length x)⟩

/-- C7, evaluated: `sanitizeFilename(" a   b ")` is `_a_b_`, not `a_b`.  The white space at
both ends is replaced by underscores before `strings.TrimSpace` runs. -/
theorem sanitizeFilename_spaces_at_ends :
    sanitizeFilename (ascii " a   b ") = ascii "_a_b_" ∧
      sanitizeFilename (ascii " a   b ") ≠ ascii "a_b" := by
  decide

/-- C5, at the input `a<b` and the character `<`: the result holds no `<`. -/
theorem sanitizeFilename_no_forbidden_witness :
    0x3C ∈ ascii "<>:\"/\\|?*" ∧ 0x3C ∈ ascii "a<b" ∧
      0x3C ∉ sanitizeFilename (ascii "a<b") :=
  ⟨by decide, by decide, (sanitizeFilename_no_forbidden (ascii "a<b") 0x3C (by decide)).1⟩
/-- Instances of `sanitizeFilename`: a truncation that cuts a two-byte character
in half leaves its first byte, U+00A0 inside a name is kept, at the ends it is trimmed,
and a vertical tab is not replaced. -/
theorem sanitizeFilename_examples :
    sanitizeFilename (List.replicate 99 0x61 ++ [0xC3, 0xA9]) = List.replicate 99 0x61 ++ [0xC3] ∧
      sanitizeFilename (sanitizeFilename (List.replicate 99 0x61 ++ [0xC3, 0xA9])) =
        List.replicate 99 0x61 ++ [0xC3] ∧
      sanitizeFilename [0x61, 0xC2, 0xA0, 0x62] = [0x61, 0xC2, 0xA0, 0x62] ∧
      sanitizeFilename [0xC2, 0xA0, 0x61, 0xC2, 0xA0] = [0x61] ∧
      sanitizeFilename (ascii "a\x0bb") = ascii "a\x0bb" := by
  refine ⟨?_, ?_, ?_, ?_, ?_⟩ <;> decide

/-! ## Runs of white space -/

namespace regexp

open utf8

/-- The scan over two lists of runes: the second starts in the state the first ends
in. -/
theorem replaceRunsAux_append (cls : Nat → Bool) (repl : GoString) :
    ∀ (cs₁ cs₂ : List (Nat × GoString)) (inRun : Bool),
      replaceRunsAux cls repl (cs₁ ++ cs₂) inRun =
        replaceRunsAux cls repl cs₁ inRun ++
          replaceRunsAux cls repl cs₂ ((cs₁.getLast?.map (fun c => cls c.1)).getD inRun) := by
  intro cs₁
  induction cs₁ with
  | nil => intro cs₂ inRun; simp [replaceRunsAux]
  | cons c cs ih =>
    intro cs₂ inRun
    obtain ⟨r, bs⟩ := c
    have hlast : ((((r, bs) :: cs).getLast?.map (fun c => cls c.1)).getD inRun) =
        ((cs.getLast?.map (fun c => cls c.1)).getD (cls r)) := by
      rcases cs with _ | ⟨c', cs'⟩
      · simp
      · rw [List.getLast?_cons_cons]
        simp [List.getLast?_eq_getLast]
    rw [hlast, List.cons_append]
    by_cases hr : cls r = true
    · rw [replaceRunsAux, replaceRunsAux, if_pos hr, if_pos hr, ih cs₂ true, hr,
        List.append_assoc]
    · have hr' : cls r = false := by simpa using hr
      rw [replaceRunsAux, replaceRunsAux, if_neg hr, if_neg hr, ih cs₂ false, hr',
        List.append_assoc]

/-- A run of runes of the class gives one replacement when it opens a match and nothing
when the match is already open. -/
theorem replaceRunsAux_run (cls : Nat → Bool) (repl : GoString) :
    ∀ (W : GoString) (inRun : Bool), (∀ b ∈ W, cls b = true) → W ≠ [] →
      replaceRunsAux cls repl (W.map (fun b => (b, [b]))) inRun =
        if inRun then [] else repl := by
  intro W
  induction W with
  | nil => intro _ _ h; exact absurd rfl h
  | cons b W ih =>
    intro inRun hW _
    have hb := hW b (List.mem_cons_self _ _)
    rcases W with _ | ⟨b', W'⟩
    · simp [replaceRunsAux, hb]
    · have := ih true (fun x hx => hW x (List.mem_cons_of_mem _ hx)) (by simp)
      rw [List.map_cons, replaceRunsAux, if_pos hb, this]
      simp

/-- When the first rune is outside the class, the state of the scan does not matter. -/
theorem replaceRunsAux_state (cls : Nat → Bool) (repl : GoString)
    (cs : List (Nat × GoString)) (h : ∀ c, cs.head? = some c → cls c.1 = false)
    (s₁ s₂ : Bool) : replaceRunsAux cls repl cs s₁ = replaceRunsAux cls repl cs s₂ := by
  rcases cs with _ | ⟨⟨r, bs⟩, cs⟩
  · simp [replaceRunsAux]
  · have hr : cls r = false := h (r, bs) rfl
    simp [replaceRunsAux, hr]

theorem range_ascii_run : ∀ (W B : GoString), (∀ b ∈ W, b < 0x80) →
    range (W ++ B) = W.map (fun b => (b, [b])) ++ range B := by
  intro W
  induction W with
  | nil => intro B _; simp
  | cons b W ih =>
    intro B h
    rw [List.cons_append, range_ascii_cons b (h b (List.mem_cons_self _ _)),
      ih B (fun x hx => h x (List.mem_cons_of_mem _ hx))]
    simp

/-- The first rune of a string whose first byte is outside an ASCII class is outside the
class. -/
theorem head_rune_outside (cls : Nat → Bool) (hcls : ∀ r, cls r = true → r < 0x80)
    (B : GoString) (hB : ∀ b, B.head? = some b → cls b = false) :
    ∀ c, (range B).head? = some c → cls c.1 = false := by
  intro c hc
  rcases B with _ | ⟨b0, B⟩
  · simp [range_nil] at hc
  · rw [range_of_ne_nil _ (by simp)] at hc
    simp only [List.head?_cons, Option.some.injEq] at hc
    subst hc
    simp only
    rcases decode_bytes b0 B with ⟨-, -, h3⟩ | ⟨h1, -⟩
    · rw [h3]; exact hB b0 rfl
    · by_contra hin
      have := hcls _ (by simpa using hin)
      omega

/-- The last rune of a string whose last byte is outside an ASCII class is outside the
class. -/
theorem last_rune_outside (cls : Nat → Bool) (hcls : ∀ r, cls r = true → r < 0x80)
    (A : GoString) (hA : ∀ b, A.getLast? = some b → cls b = false) :
    ∀ c, (range A).getLast? = some c → cls c.1 = false := by
  intro c hc
  by_contra hin
  have hin' : cls c.1 = true := by simpa using hin
  have hlt := hcls _ hin'
  have hne : range A ≠ [] := by intro h; rw [h] at hc; simp at hc
  have hmem : c ∈ range A := by
    rw [List.getLast?_eq_getLast _ hne, Option.some.injEq] at hc
    rw [← hc]; exact List.getLast_mem hne
  have hbs : c.2 = [c.1] := by
    rcases range_bytes A c hmem with ⟨-, h2⟩ | ⟨h1, -, -⟩
    · exact h2
    · omega
  have hsplit : range A = (range A).dropLast ++ [c] := by
    rw [List.getLast?_eq_getLast _ hne, Option.some.injEq] at hc
    rw [← hc, List.dropLast_append_getLast]
  have hA' : A = (((range A).dropLast).map Prod.snd).flatten ++ [c.1] := by
    conv_lhs => rw [← range_flatten A, hsplit]
    simp [hbs]
  have := hA c.1 (by rw [hA']; simp)
  rw [this] at hin'
  exact Bool.false_ne_true hin'

/-- A maximal run of bytes of an ASCII class is replaced by exactly one `repl`. -/
theorem replaceAllClassPlus_run (cls : Nat → Bool) (hcls : ∀ r, cls r = true → r < 0x80)
    (repl A W B : GoString) (hW : ∀ b ∈ W, cls b = true) (hne : W ≠ [])
    (hA : ∀ b, A.getLast? = some b → cls b = false)
    (hB : ∀ b, B.head? = some b → cls b = false) :
    replaceAllClassPlus cls repl (A ++ W ++ B) =
      replaceAllClassPlus cls repl A ++ repl ++ replaceAllClassPlus cls repl B := by
  obtain ⟨w0, W', rfl⟩ := List.exists_cons_of_ne_nil hne
  have hw0 : w0 < 0x80 := hcls _ (hW w0 (List.mem_cons_self _ _))
  have hr : range (A ++ (w0 :: W') ++ B) =
      range A ++ ((w0 :: W').map (fun b => (b, [b])) ++ range B) := by
    rw [List.append_assoc, List.cons_append,
      range_append_of_start w0 _ (Or.inl (by simp only [locb]; omega)), ← List.cons_append,
      range_ascii_run _ _ (fun b hb => hcls _ (hW b hb))]
  unfold replaceAllClassPlus
  rw [hr, replaceRunsAux_append, replaceRunsAux_append]
  have hstateA : (((range A).getLast?.map (fun c => cls c.1)).getD false) = false := by
    rcases h : (range A).getLast? with _ | c
    · rfl
    · exact last_rune_outside cls hcls A hA c h
  have hstateW : ((((w0 :: W').map (fun b : Nat => (b, [b]))).getLast?.map
      (fun c : Nat × GoString => cls c.1)).getD false) = true := by
    have hne' : (w0 :: W').map (fun b : Nat => (b, [b])) ≠ [] := by simp
    rw [List.getLast?_eq_getLast _ hne', List.getLast_map]
    simp only [Option.map_some', Option.getD_some]
    exact hW _ (List.getLast_mem _)
  rw [hstateA, hstateW, replaceRunsAux_run cls repl _ false hW (by simp),
    replaceRunsAux_state cls repl (range B) (head_rune_outside cls hcls B hB) true false]
  simp

end regexp

theorem spaceClass_iff (b : Nat) :
    regexp.spaceClass b = true ↔ b ∈ ascii " \t\n\x0c\r" := by
  have h : ascii " \t\n\x0c\r" = [0x20, 0x09, 0x0A, 0x0C, 0x0D] := by decide
  rw [h]
  simp only [regexp.spaceClass, decide_eq_true_eq, List.mem_cons, List.mem_singleton,
    List.not_mem_nil, or_false]
  omega

/-- C11, refuted as stated: a vertical tab and U+00A0 inside a name are white space and
stay in the result of `sanitizeFilename`. -/
theorem sanitizeFilename_keeps_other_whitespace :
    sanitizeFilename (ascii "a\x0bb") = ascii "a\x0bb" ∧
      0x0B ∈ sanitizeFilename (ascii "a\x0bb") ∧ unicode.IsSpace 0x0B = true ∧
      sanitizeFilename [0x61, 0xC2, 0xA0, 0x62] = [0x61, 0xC2, 0xA0, 0x62] ∧
      (0xA0, [0xC2, 0xA0]) ∈ utf8.range (sanitizeFilename [0x61, 0xC2, 0xA0, 0x62]) ∧
      unicode.IsSpace 0xA0 = true := by
  decide

/-- C11, as amended: the second step of `sanitizeFilename` replaces every maximal run of
characters of the class `\s` of the regular expression, that is of space, tab, newline,
form feed and carriage return, by exactly one underscore and copies everything else, so
the result of `sanitizeFilename` holds none of these five characters, neither as a byte
nor as a decoded rune. -/
theorem sanitizeFilename_ascii_whitespace (x : GoString) :
    sanitizeFilename x = strings.TrimSpace
        (if (regexp.replaceAllClassPlus regexp.spaceClass (ascii "_")
            (regexp.replaceAllClass regexp.forbiddenClass [] x)).length > 100 then
          (regexp.replaceAllClassPlus regexp.spaceClass (ascii "_")
            (regexp.replaceAllClass regexp.forbiddenClass [] x)).take 100
        else regexp.replaceAllClassPlus regexp.spaceClass (ascii "_")
          (regexp.replaceAllClass regexp.forbiddenClass [] x)) ∧
      (∀ A W B : GoString, W ≠ [] → (∀ b ∈ W, b ∈ ascii " \t\n\x0c\r") →
        (∀ b, A.getLast? = some b → b ∉ ascii " \t\n\x0c\r") →
        (∀ b, B.head? = some b → b ∉ ascii " \t\n\x0c\r") →
        regexp.replaceAllClassPlus regexp.spaceClass (ascii "_") (A ++ W ++ B) =
          regexp.replaceAllClassPlus regexp.spaceClass (ascii "_") A ++ ascii "_" ++
            regexp.replaceAllClassPlus regexp.spaceClass (ascii "_") B) ∧
      (∀ s : GoString, (∀ b ∈ s, b ∉ ascii " \t\n\x0c\r") →
        regexp.replaceAllClassPlus regexp.spaceClass (ascii "_") s = s) ∧
      ∀ ch ∈ ascii " \t\n\x0c\r", ch ∉ sanitizeFilename x ∧
        ∀ c ∈ utf8.range (sanitizeFilename x), c.1 ≠ ch := by
  have hnot : ∀ b, b ∉ ascii " \t\n\x0c\r" → regexp.spaceClass b = false := by
    intro b hb
    by_contra h
    exact hb ((spaceClass_iff b).1 (by simpa using h))
  refine ⟨rfl, ?_, ?_, ?_⟩
  · intro A W B hne hW hA hB
    exact regexp.replaceAllClassPlus_run _ regexp.spaceClass_lt _ A W B
      (fun b hb => (spaceClass_iff b).2 (hW b hb)) hne
      (fun b hb => hnot b (hA b hb)) (fun b hb => hnot b (hB b hb))
  · intro s hs
    exact regexp.replaceAllClassPlus_fixed _ regexp.spaceClass_lt _ s
      (fun b hb => hnot b (hs b hb))
  · intro ch hch
    have hcls := (spaceClass_iff ch).2 hch
    constructor
    · intro hmem
      have := (mem_sanitizeFilename x ch hmem).2
      rw [hcls] at this
      exact Bool.noConfusion this
    · intro c hc heq
      have := regexp.runes_outside _ regexp.spaceClass_lt _
        (fun b hb => (mem_sanitizeFilename x b hb).2) c hc
      rw [heq, hcls] at this
      exact Bool.noConfusion this

/-- C11, as amended, at the input `a \t b`: one underscore for the run, no space and no
tab in the result. -/
theorem sanitizeFilename_ascii_whitespace_witness :
    sanitizeFilename (ascii "a \t b") = ascii "a_b" ∧
      0x20 ∉ sanitizeFilename (ascii "a \t b") :=
  ⟨by decide, ((sanitizeFilename_ascii_whitespace (ascii "a \t b")).2.2.2 0x20
    (by decide)).1⟩

/-! ## Fetching and saving -/

theorem files_create_write_write (fs : FileSystem) (p t c : GoString) :
    (((fs.create p).write p t).write p c).files p = some (t ++ c) ∧
      (∀ q, q ≠ p → (((fs.create p).write p t).write p c).files q = fs.files q) ∧
      (((fs.create p).write p t).write p c).dirs = fs.dirs := by
  refine ⟨by simp [FileSystem.create, FileSystem.write], ?_, rfl⟩
  intro q hq
  simp [FileSystem.create, FileSystem.write, hq]

/-- When `saveArticleToFile` returns `nil`, the file was created and both writes went
through. -/
theorem saveArticleToFile_nil (w : World) (article : Article) (filepath : GoString)
    (fs : FileSystem) (h : (saveArticleToFile w article filepath fs).1 = none) :
    (saveArticleToFile w article filepath fs).2 =
      ((fs.create filepath).write filepath (article.Title ++ ascii "\n\n")).write filepath
        article.Content := by
  unfold saveArticleToFile at h ⊢
  rcases h1 : w.CreateErr filepath fs with _ | e1
  · simp only [h1] at h ⊢
    rcases h2 : w.WriteErr filepath (article.Title ++ ascii "\n\n") (fs.create filepath)
      with _ | ⟨n2, e2⟩
    · simp only [h2] at h ⊢
      rcases h3 : w.WriteErr filepath article.Content
        ((fs.create filepath).write filepath (article.Title ++ ascii "\n\n")) with _ | ⟨n3, e3⟩
      · simp only [h3]
      · simp [h3] at h
    · simp [h2] at h
  · simp [h1] at h

/-- C14: when `os.Create` and both writes succeed, `saveArticleToFile` returns `nil` and
leaves at the destination path a file whose content is exactly the title, two newlines
and the content, whatever the file held before and with nothing after the content; the
other files and the directories are as before. -/
theorem saveArticleToFile_writes (w : World) (article : Article) (filepath : GoString)
    (fs : FileSystem) (hcreate : w.CreateErr filepath fs = none)
    (htitle : w.WriteErr filepath (article.Title ++ ascii "\n\n") (fs.create filepath) = none)
    (hcontent : w.WriteErr filepath article.Content
      ((fs.create filepath).write filepath (article.Title ++ ascii "\n\n")) = none) :
    (saveArticleToFile w article filepath fs).1 = none ∧
      (saveArticleToFile w article filepath fs).2.files filepath =
        some (article.Title ++ ascii "\n\n" ++ article.Content) ∧
      (∀ q, q ≠ filepath →
        (saveArticleToFile w article filepath fs).2.files q = fs.files q) ∧
      (saveArticleToFile w article filepath fs).2.dirs = fs.dirs := by
  have h1 : (saveArticleToFile w article filepath fs).1 = none := by
    simp [saveArticleToFile, hcreate, htitle, hcontent]
  rw [saveArticleToFile_nil w article filepath fs h1]
  exact ⟨h1, files_create_write_write _ _ _ _⟩

/-- C14, at a file that held `old` before: it holds `T`, two newlines and `C`
afterwards. -/
theorem saveArticleToFile_writes_witness :
    (saveArticleToFile (exampleWorld (.mk .DocumentNode [] [] [])) ⟨ascii "T", ascii "C"⟩
        (ascii "/tmp/a.txt")
        ⟨fun q => if q = ascii "/tmp/a.txt" then some (ascii "old") else none,
          fun _ => false⟩).2.files (ascii "/tmp/a.txt") = some (ascii "T\n\nC") :=
  (saveArticleToFile_writes (exampleWorld (.mk .DocumentNode [] [] []))
    ⟨ascii "T", ascii "C"⟩ (ascii "/tmp/a.txt")
    ⟨fun q => if q = ascii "/tmp/a.txt" then some (ascii "old") else none, fun _ => false⟩
    rfl rfl rfl).2.1.trans (by decide)

/-- C15: when the server answers with a status code other than 200, `fetchArticle`
returns an error and no article, and a run of the program on that URL ends with exit
code 1 and the file system it started with: `main` stops before `getWiredFolderPath` and
`saveArticleToFile`, so no directory and no file is created. -/
theorem fetchArticle_status_not_ok (w : World) (url : GoString) (resp : Response)
    (hget : w.Get url = .ok resp) (hstatus : resp.StatusCode ≠ 200) :
    fetchArticle w url = .err (ascii "HTTP error: " ++ resp.Status) ∧
      ∀ (Args : List GoString) (fs : FileSystem), Args.getD 1 [] = url →
        (WiredDownloader.main w Args fs).fs = fs ∧
          (WiredDownloader.main w Args fs).exitCode = 1 := by
  have hf : fetchArticle w url = .err (ascii "HTTP error: " ++ resp.Status) := by
    simp [fetchArticle, hget, StatusOK, hstatus]
  refine ⟨hf, ?_⟩
  intro Args fs hurl
  by_cases h1 : Args.length < 2
  · rw [WiredDownloader.main, if_pos h1]
    exact ⟨rfl, rfl⟩
  · rw [WiredDownloader.main, if_neg h1]
    dsimp only
    by_cases h2 : strings.Contains (Args.getD 1 []) (ascii "wired.com") = true
    · rw [if_neg (not_not.mpr h2), hurl, hf]
      exact ⟨rfl, rfl⟩
    · rw [if_pos h2]
      exact ⟨rfl, rfl⟩

/-- C15, at the answer `404 Not Found`: error, exit code 1, empty file system. -/
theorem fetchArticle_status_not_ok_witness :
    fetchArticle notFoundWorld (ascii "https://www.wired.com/story/foo") =
        .err (ascii "HTTP error: 404 Not Found") ∧
      (WiredDownloader.main notFoundWorld
          [ascii "wired-downloader", ascii "https://www.wired.com/story/foo"]
          emptyFileSystem).fs = emptyFileSystem ∧
      (WiredDownloader.main notFoundWorld
          [ascii "wired-downloader", ascii "https://www.wired.com/story/foo"]
          emptyFileSystem).exitCode = 1 :=
  ⟨(fetchArticle_status_not_ok notFoundWorld (ascii "https://www.wired.com/story/foo")
      ⟨404, ascii "404 Not Found", []⟩ rfl (by decide)).1,
    (fetchArticle_status_not_ok notFoundWorld (ascii "https://www.wired.com/story/foo")
      ⟨404, ascii "404 Not Found", []⟩ rfl (by decide)).2 _ _ rfl⟩

theorem fetchArticle_ok_title (w : World) (url : GoString) (article : Article)
    (h : fetchArticle w url = .ok article) : extractTitle url = some article.Title := by
  unfold fetchArticle at h
  rcases h1 : w.Get url with e | resp
  · simp [h1] at h
  · simp only [h1] at h
    split_ifs at h
    rcases h2 : w.Parse resp.Body with e | doc
    · simp [h2] at h
    · simp only [h2] at h
      rcases h3 : extractTitle url with _ | title
      · simp [h3] at h
      · simp only [h3, FetchResult.ok.injEq] at h
        rw [← h]

/-- C13: in every run that ends with exit code 0 the article was written to the file
whose name is `sanitizeFilename(Title) ++ ".txt"`, joined to the Wired folder, `Title`
being `extractTitle` of the URL; that path is printed, and the file holds the title, two
newlines and the content.  For the title `my article!` the file name is
`my_article!.txt`. -/
theorem main_destination (w : World) (Args : List GoString) (fs : FileSystem)
    (h : (WiredDownloader.main w Args fs).exitCode = 0) :
    (∃ article wiredPath, fetchArticle w (Args.getD 1 []) = .ok article ∧
      extractTitle (Args.getD 1 []) = some article.Title ∧
      (getWiredFolderPath w fs).1 = .ok wiredPath ∧
      (WiredDownloader.main w Args fs).stdout =
        ascii "Article saved to: " ++
          w.Join wiredPath (sanitizeFilename article.Title ++ ascii ".txt") ++ ascii "\n" ∧
      (WiredDownloader.main w Args fs).fs.files
          (w.Join wiredPath (sanitizeFilename article.Title ++ ascii ".txt")) =
        some (article.Title ++ ascii "\n\n" ++ article.Content)) ∧
      sanitizeFilename (ascii "my article!") ++ ascii ".txt" = ascii "my_article!.txt" := by
  refine ⟨?_, by decide⟩
  unfold WiredDownloader.main at h ⊢
  by_cases h1 : Args.length < 2
  · rw [if_pos h1] at h
    simp at h
  · rw [if_neg h1] at h ⊢
    dsimp only at h ⊢
    by_cases h2 : strings.Contains (Args.getD 1 []) (ascii "wired.com") = true
    · rw [if_neg (not_not.mpr h2)] at h ⊢
      have htitle := fetchArticle_ok_title w (Args.getD 1 [])
      rcases hf : fetchArticle w (Args.getD 1 []) with article | e |_
      · rw [hf] at h htitle
        dsimp only at h ⊢
        rcases hg : getWiredFolderPath w fs with ⟨e | wiredPath, fs1⟩
        · rw [hg] at h
          simp at h
        · rw [hg] at h
          dsimp only at h ⊢
          rcases hs : saveArticleToFile w article
            (w.Join wiredPath (sanitizeFilename article.Title ++ ascii ".txt")) fs1
            with ⟨_ | e, fs2⟩
          · have hnil := saveArticleToFile_nil w article
              (w.Join wiredPath (sanitizeFilename article.Title ++ ascii ".txt")) fs1
              (by rw [hs])
            rw [hs] at hnil
            dsimp only at hnil ⊢
            refine ⟨article, wiredPath, rfl, htitle article rfl, rfl, rfl, ?_⟩
            rw [hnil]
            exact (files_create_write_write _ _ _ _).1
          · rw [hs] at h
            simp at h
      · rw [hf] at h
        simp at h
      · rw [hf] at h
        simp at h
    · rw [if_pos h2] at h
      simp at h

/-- C13, at the URL `https://www.wired.com/my article!`: the run ends with exit code 0 and
the file `/home/u/Documents/Wired/my_article!.txt` holds `my article!`, two newlines and
the content. -/
theorem main_destination_witness :
    (WiredDownloader.main
        (exampleWorld (.mk .ElementNode (ascii "p") [] [.mk .TextNode (ascii "Hi") [] []]))
        [ascii "wired-downloader", ascii "https://www.wired.com/my article!"]
        emptyFileSystem).exitCode = 0 ∧
      (WiredDownloader.main
        (exampleWorld (.mk .ElementNode (ascii "p") [] [.mk .TextNode (ascii "Hi") [] []]))
        [ascii "wired-downloader", ascii "https://www.wired.com/my article!"]
        emptyFileSystem).fs.files (ascii "/home/u/Documents/Wired/my_article!.txt") =
        some (ascii "my article!\n\nHi") ∧
      sanitizeFilename (ascii "my article!") ++ ascii ".txt" = ascii "my_article!.txt" :=
  ⟨by decide, by decide,
    (main_destination
      (exampleWorld (.mk .ElementNode (ascii "p") [] [.mk .TextNode (ascii "Hi") [] []]))
      [ascii "wired-downloader", ascii "https://www.wired.com/my article!"]
      emptyFileSystem (by decide)).2⟩
